import Mathlib

/-
  Verification of the centrality-analysis program
  (src/Project/centrality_analysis/src/main.rs).

  The Rust source is shallowly embedded: `usize` becomes `Nat` (with the
  `2^64` bound made explicit where a parse can overflow), `io::Result` becomes
  `Except String`, the petgraph `Graph<usize, (), Undirected>` becomes a list
  of node payloads (position = `NodeIndex`) together with a list of
  index pairs, and the `HashSet` of normalized edges becomes a duplicate-free
  list in insertion order.  `HashMap`/`HashSet` iteration order is
  unspecified in Rust; where a result can depend on it the development
  quantifies over permutations of the canonical insertion order.
-/

namespace CentralityAnalysis

/-! ### Line parsing (main.rs, `load_graph` lines 25–38)

Lines are embedded as `List Char` (the character content of a Rust
`String`); the byte/character distinction is immaterial for this program. -/

/-- `usize::MAX + 1` on a 64-bit target: a token parses as `usize`
only when its value is below this bound. -/
def usizeBound : Nat := 2 ^ 64

/-- Numeric value of a digit string. -/
def digitsVal (cs : List Char) : Nat :=
  cs.foldl (fun acc c => 10 * acc + (c.toNat - 48)) 0

/-- Models Rust `str::parse::<usize>()`: an optional leading `+`, then one or
more ASCII digits, and the value must fit in `usize`; anything else fails. -/
def parseUsize (s : List Char) : Option Nat :=
  let t := if s.take 1 = ['+'] then s.drop 1 else s
  if t ≠ [] && t.all Char.isDigit then
    if digitsVal t < usizeBound then some (digitsVal t) else none
  else none

/-- Models Rust `str::split_whitespace`: the maximal runs of
non-whitespace characters. -/
def splitWhitespace (s : List Char) : List (List Char) :=
  (s.splitOnP Char.isWhitespace).filter (fun t => t ≠ [])

/-- `line.split_whitespace().filter_map(|x| x.parse::<usize>().ok())`:
the integers parsed from a line, tokens that fail to parse being dropped. -/
def parsedNodes (line : List Char) : List Nat :=
  (splitWhitespace line).filterMap parseUsize

/-- Models Rust `str::trim`: whitespace stripped from both ends. -/
def trimChars (s : List Char) : List Char :=
  ((s.dropWhile Char.isWhitespace).reverse.dropWhile Char.isWhitespace).reverse

/-- The comment/blank test of main.rs line 25:
`line.starts_with('#') || line.trim().is_empty()`. -/
def skipLine (line : List Char) : Bool :=
  line.take 1 = ['#'] || trimChars line = []

/-- The normalized candidate edge a single input line contributes to the
deduplication set (main.rs lines 25–38): skipped lines and lines whose
parsed-integer list does not have length exactly 2 contribute nothing;
a parsed pair `(from, to)` contributes `(min, max)` only when `from ≠ to`. -/
def lineEdge (line : List Char) : Option (Nat × Nat) :=
  if skipLine line then none
  else
    match parsedNodes line with
    | [a, b] => if a ≠ b then some (min a b, max a b) else none
    | _ => none

/-! ### Edge deduplication (`edges: HashSet<(usize, usize)>`) -/

/-- `HashSet::insert`, modelled as append-if-absent on a duplicate-free
list kept in first-insertion order. -/
def insertEdge (s : List (Nat × Nat)) (e : Nat × Nat) : List (Nat × Nat) :=
  if e ∈ s then s else s ++ [e]

/-- The deduplicated edge set accumulated over all input lines. -/
def edgeSet (lines : List (List Char)) : List (Nat × Nat) :=
  lines.foldl
    (fun s l =>
      match lineEdge l with
      | some e => insertEdge s e
      | none => s)
    []

/-! ### The graph (petgraph `Graph<usize, (), Undirected>`) -/

/-- A petgraph undirected graph with `usize` node payloads: `nodes` lists the
payloads (the position in the list is the `NodeIndex`), `edges` lists the
endpoint index pairs in insertion order. -/
structure AuthorGraph where
  nodes : List Nat
  edges : List (Nat × Nat)
deriving DecidableEq

def AuthorGraph.node_count (g : AuthorGraph) : Nat := g.nodes.length

def AuthorGraph.edge_count (g : AuthorGraph) : Nat := g.edges.length

/-- `node_map.entry(p).or_insert_with(|| graph.add_node(p))`: the `HashMap`
from payload to index is represented positionally — a payload's index is its
position in `nodes`, valid because each payload is added at most once. -/
def getOrAddNode (g : AuthorGraph) (p : Nat) : AuthorGraph × Nat :=
  if p ∈ g.nodes then (g, g.nodes.indexOf p)
  else ({ g with nodes := g.nodes ++ [p] }, g.nodes.length)

/-- One pass of the edge-insertion loop (main.rs lines 41–45): resolve both
endpoints (adding missing nodes) and push one edge. -/
def addEdgePair (g : AuthorGraph) (e : Nat × Nat) : AuthorGraph :=
  let r1 := getOrAddNode g e.1
  let r2 := getOrAddNode r1.1 e.2
  { r2.1 with edges := r2.1.edges ++ [(r1.2, r2.2)] }

/-- Builds the graph from the deduplicated edge set in the given
iteration order. -/
def buildGraph (es : List (Nat × Nat)) : AuthorGraph :=
  es.foldl addEdgePair { nodes := [], edges := [] }

/-! ### `load_graph` (main.rs lines 17–49) and `read_lines` (163–169) -/

/-- Sequences the `line?` reads: the first erroneous line aborts the load
with that error. -/
def collectLines : List (Except String (List Char)) → Except String (List (List Char))
  | [] => .ok []
  | .error e :: _ => .error e
  | .ok s :: rest => (collectLines rest).map (fun l => s :: l)

/-- Models `load_graph`.  The argument is the result of
`read_lines(file_path)`: `Except.error` when `File::open` fails, otherwise
the list of per-line read results (`line?` propagates a line-read failure).
Note the source wraps the whole body in `if let Ok(lines) = read_lines(..)`,
so an open failure falls through to `Ok(graph)` with the empty graph. -/
def load_graph (input : Except String (List (Except String (List Char)))) :
    Except String AuthorGraph :=
  match input with
  | .error _ => .ok (buildGraph [])
  | .ok lines =>
    match collectLines lines with
    | .error e => .error e
    | .ok strs => .ok (buildGraph (edgeSet strs))

/-- Models `BufRead::lines` applied to a file's full text content: split at
newlines, drop the segment after a trailing newline, strip a trailing
carriage return from each line. -/
def rustLines (content : List Char) : List (List Char) :=
  let parts := content.splitOnP (fun c => c == '\n')
  let parts := if parts.getLast? = some [] then parts.dropLast else parts
  parts.map (fun l => if l.getLast? = some '\r' then l.dropLast else l)

/-- `load_graph` on a file that opens and reads cleanly with the given
text content. -/
def load_graph_content (content : String) : AuthorGraph :=
  buildGraph (edgeSet (rustLines content.toList))

/-! ### Centrality engine (`compute_centralities`, main.rs lines 53–111) -/

/-- Whether edge `e` is incident to node index `v`; petgraph's
`graph.edges(v)` enumerates exactly the incident edges. -/
def incident (e : Nat × Nat) (v : Nat) : Bool := e.1 == v || e.2 == v

/-- The opposite endpoint: petgraph orients each edge yielded by
`graph.edges(v)` so that `target()` is the endpoint other than `v`
(for non-self-loop edges). -/
def otherEnd (e : Nat × Nat) (v : Nat) : Nat := if e.1 == v then e.2 else e.1

/-- `graph.edges(v).count()`: the degree of node index `v`. -/
def AuthorGraph.degree (g : AuthorGraph) (v : Nat) : Nat :=
  (g.edges.filter (fun e => incident e v)).length

/-- The degree-centrality map (main.rs lines 58–61), keyed by payload:
`degree_centrality.insert(graph[node], graph.edges(node).count())`,
iterating node indices in order. -/
def degree_centrality (g : AuthorGraph) : List (Nat × Nat) :=
  (List.range g.nodes.length).map (fun v => (g.nodes.getD v 0, g.degree v))

/-! #### Path-sum ("betweenness") centrality, main.rs lines 63–68 -/

/-- The neighbours of node index `v` (other endpoints of incident edges). -/
def neighborsOf (g : AuthorGraph) (v : Nat) : List Nat :=
  (g.edges.filter (fun e => incident e v)).map (fun e => otherEnd e v)

/-- Nodes reachable from `s` by a walk of length at most `k`. -/
def ball (g : AuthorGraph) (s : Nat) : Nat → Finset Nat
  | 0 => {s}
  | k + 1 =>
    ball g s k ∪ (ball g s k).biUnion (fun v => (neighborsOf g v).toFinset)

/-- Nodes reachable from `s` by a walk of length exactly `k`. -/
def exactReach (g : AuthorGraph) (s : Nat) : Nat → Finset Nat
  | 0 => {s}
  | k + 1 => (exactReach g s k).biUnion (fun v => (neighborsOf g v).toFinset)

/-- Modelled from the spec (the callee is petgraph's `dijkstra`, whose source
is not part of this repository): "run a single-source shortest-path
computation (unit edge weight) from n to every reachable node"; the returned
map binds every node reachable from `s` — including `s` itself at distance
0 — to its least path cost, and contains nothing else.  `none` encodes
absence from the map; the least distance of a reachable node is the first
`k ≤ node_count` whose ball contains it. -/
def dijkstraDist (g : AuthorGraph) (s v : Nat) : Option Nat :=
  (List.range (g.nodes.length + 1)).find? (fun k => decide (v ∈ ball g s k))

/-- `dijkstra(&graph, node, None, |_| 1)` followed by
`distances.values().sum()` (main.rs lines 65–66). -/
def pathSum (g : AuthorGraph) (s : Nat) : Nat :=
  ((List.range g.nodes.length).filterMap (fun v => dijkstraDist g s v)).sum

/-- The path-sum ("betweenness") centrality map, keyed by payload. -/
def betweenness_centrality (g : AuthorGraph) : List (Nat × Nat) :=
  (List.range g.nodes.length).map (fun v => (g.nodes.getD v 0, pathSum g v))

/-- Spec-side adjacency: some stored edge joins indices `u` and `v`. -/
def adjacentIdx (g : AuthorGraph) (u v : Nat) : Prop :=
  (u, v) ∈ g.edges ∨ (v, u) ∈ g.edges

/-- Spec-side walks: `Walk g u v k` holds when a walk of exactly `k` edges
joins `u` to `v`. -/
inductive Walk (g : AuthorGraph) : Nat → Nat → Nat → Prop
  | nil (v : Nat) : Walk g v v 0
  | cons {u w v : Nat} {k : Nat} :
      adjacentIdx g u w → Walk g w v k → Walk g u v (k + 1)

/-- Spec-side reachability: some walk joins `s` to `v`. -/
def Reachable (g : AuthorGraph) (s v : Nat) : Prop := ∃ k, Walk g s v k

/-! #### Eigenvector centrality, main.rs lines 70–111: exact direction model

The floating-point iteration is idealized to exact real arithmetic.  Since
the synchronous update is linear and the normalization only divides the
whole vector by its (positive) Euclidean norm, the value vector after `k ≥ 1`
iterations is `powerVec g k` divided by the real number `sqrt (sumSq g k)`;
keeping the scale factor implicit keeps every stored quantity rational. -/

/-- One synchronous update before normalization: each node's next value is
the sum of the current values of its neighbours (main.rs lines 81–87). -/
def neighborSum (g : AuthorGraph) (w : Nat → ℚ) (v : Nat) : ℚ :=
  ((g.edges.filter (fun e => incident e v)).map (fun e => w (otherEnd e v))).sum

/-- The unnormalized direction vector after `k` power-iteration steps,
starting from the all-ones initialization (main.rs lines 71–74). -/
def powerVec (g : AuthorGraph) : Nat → Nat → ℚ
  | 0, _ => 1
  | k + 1, v => neighborSum g (powerVec g k) v

/-- `next_centrality_values.values().map(|v| v * v).sum()` on the direction
vector: the squared Euclidean norm before normalization. -/
def sumSq (g : AuthorGraph) (k : Nat) : ℚ :=
  ((List.range g.nodes.length).map (fun v => powerVec g k v ^ 2)).sum

/-- Squared Euclidean norm of the normalized vector after iteration `k`:
each normalized entry is `powerVec g k v / sqrt (sumSq g k)`, whose square
is the rational `powerVec g k v ^ 2 / sumSq g k`. -/
def normalizedNormSq (g : AuthorGraph) (k : Nat) : ℚ :=
  ((List.range g.nodes.length).map (fun v => powerVec g k v ^ 2 / sumSq g k)).sum

/-- The convergence tolerance `1e-6` (main.rs line 76). -/
def tol : ℚ := 1 / 1000000

/-- Exact-arithmetic encoding of the convergence check of the FIRST loop
iteration (main.rs lines 96–103), the only iteration whose `break` would
retain a non-normalized vector (the all-ones initialization).  The check
passes when `max |old - new| < 1e-6` over all nodes.  If the first
iteration's norm is zero every difference is NaN and Rust's NaN-ignoring
`f64::max` folds them to 0, so the check passes (left disjunct).  Otherwise
old = 1 and new = `w₁ v / sqrt S ≥ 0`, so the check passes exactly when
`1 - tol < w₁ v / sqrt S < 1 + tol` for every node, which — multiplying by
`sqrt S > 0` and squaring the nonnegative sides — is the rational condition
of the right disjunct. -/
def ConvergesAtFirstCheck (g : AuthorGraph) : Prop :=
  sumSq g 1 = 0 ∨
    ∀ v ∈ List.range g.nodes.length,
      (1 - tol) ^ 2 * sumSq g 1 < powerVec g 1 v ^ 2 ∧
      powerVec g 1 v ^ 2 < (1 + tol) ^ 2 * sumSq g 1

/-! #### Eigenvector centrality: exact partial `f64` model

For the degenerate-numeric claim the loop is also embedded with an exact
model of `f64` special values: finite arithmetic is exact rational
arithmetic, and NaN / infinities follow IEEE 754 and Rust.  `sqrt` returns
`none` when its exact result is irrational, i.e. when the computation
leaves the model; the traces this development evaluates stay inside it. -/

/-- An `f64` value: NaN, a signed infinity, or an exact finite value.
(Signed zero is not distinguished; it is never observable here.) -/
inductive FQ
  | nan
  | pinf
  | ninf
  | val (q : ℚ)
deriving DecidableEq

/-- IEEE addition. -/
def FQ.add : FQ → FQ → FQ
  | nan, _ => nan
  | _, nan => nan
  | pinf, ninf => nan
  | ninf, pinf => nan
  | pinf, _ => pinf
  | _, pinf => pinf
  | ninf, _ => ninf
  | _, ninf => ninf
  | val a, val b => val (a + b)

/-- IEEE negation. -/
def FQ.neg : FQ → FQ
  | nan => nan
  | pinf => ninf
  | ninf => pinf
  | val a => val (-a)

/-- IEEE subtraction. -/
def FQ.sub (x y : FQ) : FQ := x.add y.neg

/-- IEEE absolute value. -/
def FQ.abs : FQ → FQ
  | nan => nan
  | pinf => pinf
  | ninf => pinf
  | val a => val |a|

/-- IEEE multiplication. -/
def FQ.mul : FQ → FQ → FQ
  | nan, _ => nan
  | _, nan => nan
  | pinf, pinf => pinf
  | pinf, ninf => ninf
  | ninf, pinf => ninf
  | ninf, ninf => pinf
  | pinf, val b => if 0 < b then pinf else if b < 0 then ninf else nan
  | val a, pinf => if 0 < a then pinf else if a < 0 then ninf else nan
  | ninf, val b => if 0 < b then ninf else if b < 0 then pinf else nan
  | val a, ninf => if 0 < a then ninf else if a < 0 then pinf else nan
  | val a, val b => val (a * b)

/-- IEEE division (signed zeros ignored). -/
def FQ.div : FQ → FQ → FQ
  | nan, _ => nan
  | _, nan => nan
  | pinf, pinf => nan
  | pinf, ninf => nan
  | ninf, pinf => nan
  | ninf, ninf => nan
  | pinf, val b => if b < 0 then ninf else pinf
  | ninf, val b => if b < 0 then pinf else ninf
  | val _, pinf => val 0
  | val _, ninf => val 0
  | val a, val b =>
    if b = 0 then (if a = 0 then nan else if 0 < a then pinf else ninf)
    else val (a / b)

/-- IEEE `<`: false whenever either operand is NaN. -/
def FQ.lt : FQ → FQ → Bool
  | nan, _ => false
  | _, nan => false
  | pinf, _ => false
  | ninf, ninf => false
  | ninf, _ => true
  | val _, pinf => true
  | val _, ninf => false
  | val a, val b => a < b

/-- Rust `f64::max`: NaN only when both operands are NaN, otherwise the
NaN operand (if any) is ignored. -/
def FQ.fmax : FQ → FQ → FQ
  | nan, y => y
  | x, nan => x
  | pinf, _ => pinf
  | _, pinf => pinf
  | ninf, y => y
  | x, ninf => x
  | val a, val b => val (max a b)

/-- Exact square root of a rational, when the result is rational. -/
def ratSqrt (q : ℚ) : Option ℚ :=
  let sn := Nat.sqrt q.num.toNat
  let sd := Nat.sqrt q.den
  if 0 ≤ q.num ∧ sn * sn = q.num.toNat ∧ sd * sd = q.den then
    some ((sn : ℚ) / (sd : ℚ))
  else none

/-- `f64::sqrt`, partial: `none` when the exact result is irrational and
hence not representable in this model. -/
def FQ.sqrt : FQ → Option FQ
  | nan => some nan
  | pinf => some pinf
  | ninf => some nan
  | val q => if q < 0 then some nan else (ratSqrt q).map val

/-- Rust `iter().sum::<f64>()`: fold addition starting from `0.0`. -/
def FQ.sumList (l : List FQ) : FQ := l.foldl FQ.add (FQ.val 0)

/-- Rust float-to-integer `as usize`: saturating cast truncating toward
zero, NaN ↦ 0.  (For `q ≥ 0`, `q.num.toNat / q.den` is the truncation.) -/
def FQ.toUsize : FQ → Nat
  | nan => 0
  | pinf => usizeBound - 1
  | ninf => 0
  | val q => if q < 0 then 0 else min (q.num.toNat / q.den) (usizeBound - 1)

/-- One body of the iteration loop before the convergence check (main.rs
lines 79–93): clone-and-overwrite every node's value with its neighbour sum
read from the PREVIOUS vector, then divide every value by the Euclidean norm
of the new vector — with no guard on the norm being zero.  Values are listed
by node index; the source keys its `HashMap` by the payload `graph[node]`,
a bijective re-keying under the loader's duplicate-free payloads. -/
def eigenStep (g : AuthorGraph) (cur : List FQ) : Option (List FQ) :=
  let next := (List.range g.nodes.length).map (fun v =>
    FQ.sumList ((g.edges.filter (fun e => incident e v)).map
      (fun e => cur.getD (otherEnd e v) (FQ.val 0))))
  let s := FQ.sumList (next.map (fun x => x.mul x))
  match s.sqrt with
  | none => none
  | some norm => some (next.map (fun x => x.div norm))

/-- The capped loop (main.rs lines 78–106): on convergence
(`max |old - new| < 1e-6`, Rust `f64::max` fold starting at `0.0`) the OLD
vector is kept — the `break` fires before `centrality_values` is replaced. -/
def eigenLoop (g : AuthorGraph) : Nat → List FQ → Option (List FQ)
  | 0, cur => some cur
  | fuel + 1, cur =>
    match eigenStep g cur with
    | none => none
    | some next =>
      let maxdiff :=
        ((cur.zip next).map (fun p => (p.1.sub p.2).abs)).foldl FQ.fmax (FQ.val 0)
      if maxdiff.lt (FQ.val tol) then some cur
      else eigenLoop g fuel next

/-- The eigenvector-centrality block (main.rs lines 70–111): start from the
all-1.0 vector, run at most 100 iterations, scale by `1_000_000.0` and cast
`as usize`; the result maps each payload to its scaled score. -/
def eigenvector_centrality (g : AuthorGraph) : Option (List (Nat × Nat)) :=
  match eigenLoop g 100 (List.replicate g.nodes.length (FQ.val 1)) with
  | none => none
  | some vals =>
    some (g.nodes.zip (vals.map (fun x => (x.mul (FQ.val 1000000)).toUsize)))

/-! ### `print_top` (main.rs lines 124–131) -/

/-- `print_top`: collect the map's entries (the argument is the entry list
in the `HashMap`'s arbitrary iteration order), stable-sort by
`|a, b| b.1.cmp(a.1)` — descending score — and keep the first 10. -/
def print_top (centrality : List (Nat × Nat)) : List (Nat × Nat) :=
  (centrality.mergeSort (fun a b => Nat.ble b.2 a.2)).take 10

/-! ### Derived notions used by the statements -/

/-- Well-formedness of a built graph: duplicate-free payloads, and every
stored edge joins two distinct valid node indices.  `buildGraph` establishes
this for every deduplicated edge set. -/
def AuthorGraph.WF (g : AuthorGraph) : Prop :=
  g.nodes.Nodup ∧
    ∀ e ∈ g.edges, e.1 ≠ e.2 ∧ e.1 < g.nodes.length ∧ e.2 < g.nodes.length

instance (g : AuthorGraph) : Decidable g.WF := by
  unfold AuthorGraph.WF
  infer_instance

/-- Two pairs denote the same unordered pair. -/
def unorderedEq (e f : Nat × Nat) : Prop := f = e ∨ f = (e.2, e.1)

/-- The canonical (sorted) form of an unordered pair. -/
def canonPair (e : Nat × Nat) : Nat × Nat := (min e.1 e.2, max e.1 e.2)

/-- The external-id pair an index edge stands for. -/
def payloadPair (g : AuthorGraph) (e : Nat × Nat) : Nat × Nat :=
  (g.nodes.getD e.1 0, g.nodes.getD e.2 0)

/-- Payload-level incidence: the edges of the raw set touching id `p`. -/
def incidentP (e : Nat × Nat) (p : Nat) : Bool := e.1 == p || e.2 == p

/-- Payload-level neighbour list of external id `p` in a raw edge set. -/
def adjListP (es : List (Nat × Nat)) (p : Nat) : List Nat :=
  (es.filter (fun e => incidentP e p)).map (fun e => if e.1 == p then e.2 else e.1)

/-- Payload-level degree of external id `p`. -/
def pdeg (es : List (Nat × Nat)) (p : Nat) : Nat :=
  (es.filter (fun e => incidentP e p)).length

/-- Payload-level power-iteration direction vector. -/
def powerVecP (es : List (Nat × Nat)) : Nat → Nat → ℚ
  | 0, _ => 1
  | k + 1, p => ((adjListP es p).map (powerVecP es k)).sum

/-- Payload-level adjacency: some raw edge joins ids `p` and `q`. -/
def adjacentP (es : List (Nat × Nat)) (p q : Nat) : Prop :=
  (p, q) ∈ es ∨ (q, p) ∈ es

/-- Payload-level walks over the raw edge set. -/
inductive WalkP (es : List (Nat × Nat)) : Nat → Nat → Nat → Prop
  | nil (p : Nat) : WalkP es p p 0
  | cons {p r q : Nat} {k : Nat} :
      adjacentP es p r → WalkP es r q k → WalkP es p q (k + 1)

/-- The exact power-iteration direction vector keyed by external id, the
run-order-independent content of the floating-point eigenvector map: after
`k ≥ 1` iterations the stored value of id `p` is
`powerVecP .. k p / sqrt (sum of squares)`. -/
def eigenMapQ (g : AuthorGraph) (k : Nat) : Nat → Option ℚ :=
  fun p => if p ∈ g.nodes then some (powerVec g k (g.nodes.indexOf p)) else none

/-- The fully disconnected graph on one node, external id 7. -/
def isolatedGraph : AuthorGraph := { nodes := [7], edges := [] }

/-- The path graph 1–2–3 as `load_graph` builds it from lines
`"1 2"`, `"2 3"`. -/
def pathGraph123 : AuthorGraph := { nodes := [1, 2, 3], edges := [(0, 1), (1, 2)] }

/-! ## Theorems -/

/-- `line?` on a list of clean reads yields all the lines. -/
lemma collectLines_map_ok (lines : List (List Char)) :
    collectLines (lines.map Except.ok) = Except.ok lines := by
  induction lines with
  | nil => rfl
  | cons l rest ih => simp [collectLines, ih, Except.map]

/-- C1: the claim says `load_graph` returns an I/O error whenever the file
cannot be opened; the code instead swallows the open failure — the
`if let Ok(lines) = read_lines(..)` guard skips the body and the function
falls through to `Ok(graph)` with a graph of 0 nodes and 0 edges. -/
theorem load_graph_swallows_open_error :
    load_graph (Except.error ("No such file or directory (os error 2)")) =
      Except.ok { nodes := [], edges := [] } := rfl

/-- C9: `load_graph` on the content `"1 2\n2 3\n3 1\n4 5\n"` yields a graph
with `node_count() = 5` and `edge_count() = 4`. -/
theorem load_graph_example :
    (load_graph_content ("1 2\n2 3\n3 1\n4 5\n")).node_count = 5 ∧
    (load_graph_content ("1 2\n2 3\n3 1\n4 5\n")).edge_count = 4 := by decide

/-- C2 (divergence evaluated on the failing input): on the fully
disconnected one-node graph the normalization step divides by the zero norm
with no guard, turning the value vector into NaN; the convergence check's
NaN-ignoring `f64::max` then folds to 0, the loop breaks, and the returned
mapping holds the PREVIOUS value `1.0`, scaled to `1000000` — not the zero
result the claim requires, and with no explicit guard anywhere. -/
theorem eigen_zero_norm_unguarded :
    eigenStep isolatedGraph [FQ.val 1] = some [FQ.nan] ∧
    eigenvector_centrality isolatedGraph = some [(7, 1000000)] := by
  constructor
  · simp [eigenStep, isolatedGraph, FQ.sumList, FQ.sqrt, ratSqrt, FQ.div, FQ.mul, FQ.add]
  · simp [eigenvector_centrality, eigenLoop, eigenStep, isolatedGraph, FQ.sumList,
      FQ.sqrt, ratSqrt, FQ.div, FQ.mul, FQ.sub, FQ.add, FQ.neg, FQ.abs, FQ.fmax,
      FQ.lt, FQ.toUsize, tol, usizeBound]

/-- C8 (counterexample to the claim as stated): the line `"1 2 x"` contains
a non-integer token, so by the claim it must be skipped, yet it contributes
the edge (1,2) — `filter_map` silently drops the unparsable token; and the
line `"1 1"` parses into exactly two non-negative integers, so by the claim
it contributes an edge, yet it contributes none (self-loop check). -/
theorem lineEdge_counterexample :
    lineEdge ("1 2 x").toList = some (1, 2) ∧ lineEdge ("1 1").toList = none := by
  decide

/-- C8 as amended: a line contributes a candidate edge iff it does not start
with `'#'`, does not trim to empty, EXACTLY TWO of its whitespace-separated
tokens parse as 64-bit non-negative integers (tokens that fail to parse are
ignored rather than disqualifying the line), and the two parsed values are
distinct; the contributed edge is the sorted pair.  Every other line is
skipped, and no line ever makes the load fail: on a file whose lines all
read cleanly `load_graph` returns `Ok`. -/
theorem lineEdge_characterization :
    (∀ (line : List Char) (e : Nat × Nat),
      lineEdge line = some e ↔
        (line.take 1 ≠ ['#'] ∧ trimChars line ≠ [] ∧
          ∃ a b, parsedNodes line = [a, b] ∧ a ≠ b ∧ e = (min a b, max a b))) ∧
    (∀ lines : List (List Char),
      load_graph (Except.ok (lines.map Except.ok)) =
        Except.ok (buildGraph (edgeSet lines))) := by
  constructor
  · intro line e
    constructor
    · intro he
      unfold lineEdge at he
      by_cases hs : skipLine line = true
      · simp [hs] at he
      · rw [if_neg hs] at he
        unfold skipLine at hs
        simp only [Bool.or_eq_true, decide_eq_true_eq, not_or] at hs
        obtain ⟨h1, h2⟩ := hs
        refine ⟨h1, h2, ?_⟩
        cases hp : parsedNodes line with
        | nil => rw [hp] at he; exact absurd he (by simp)
        | cons a t =>
          cases t with
          | nil => rw [hp] at he; exact absurd he (by simp)
          | cons b t2 =>
            cases t2 with
            | cons c t3 => rw [hp] at he; exact absurd he (by simp)
            | nil =>
              rw [hp] at he
              by_cases hab : a = b
              · simp [hab] at he
              · simp only [ne_eq, hab, not_false_iff, if_true, Option.some.injEq] at he
                exact ⟨a, b, rfl, hab, he.symm⟩
    · rintro ⟨h1, h2, a, b, hp, hab, rfl⟩
      unfold lineEdge
      rw [if_neg (by unfold skipLine; simp [h1, h2]), hp]
      simp [hab]
  · intro lines
    simp [load_graph, collectLines_map_ok]

/-- C8 witness: the characterization evaluated on the line `"1 2"`. -/
theorem lineEdge_characterization_witness :
    lineEdge ("1 2").toList = some (1, 2) :=
  (lineEdge_characterization.1 ("1 2").toList (1, 2)).mpr
    ⟨by decide, by decide, 1, 2, by decide, by decide, by decide⟩

/-- C7: `print_top` returns `min 10 (size)` entries in descending score
order; on (any iteration order of) the mapping `{1 ↦ 5, 2 ↦ 3, 3 ↦ 5, 4 ↦ 1}`
it returns exactly 4 entries whose scores read `[5, 5, 3, 1]` — both
score-5 ids precede the score-3 id, which precedes the score-1 id — and
whose ids are exactly `{1, 2, 3, 4}`; the order among the equal-score
entries is whatever the stable sort made of the arbitrary input order. -/
theorem print_top_ranking (m : List (Nat × Nat)) :
    (print_top m).length = min 10 m.length ∧
    List.Pairwise (fun a b : Nat × Nat => b.2 ≤ a.2) (print_top m) ∧
    (m.Perm [(1, 5), (2, 3), (3, 5), (4, 1)] →
      (print_top m).map Prod.snd = [5, 5, 3, 1] ∧
      ((print_top m).map Prod.fst).Perm [1, 2, 3, 4]) := by
  have hperm := List.mergeSort_perm m (fun a b => Nat.ble b.2 a.2)
  have hsorted := @List.sorted_mergeSort (Nat × Nat)
      (fun a b => Nat.ble b.2 a.2)
      (fun a b c hab hbc => by simp only [Nat.ble_eq] at *; omega)
      (fun a b => by simp only [Bool.or_eq_true, Nat.ble_eq]; omega) m
  refine ⟨?_, ?_, ?_⟩
  · simp [print_top, List.length_take, hperm.length_eq]
  · exact (List.Pairwise.sublist (List.take_sublist 10 _) hsorted).imp
      (fun h => by simpa [Nat.ble_eq] using h)
  · intro hm
    have htake : print_top m = m.mergeSort (fun a b => Nat.ble b.2 a.2) := by
      unfold print_top
      exact List.take_of_length_le (by rw [hperm.length_eq, hm.length_eq]; simp)
    constructor
    · haveI : IsAntisymm Nat (fun a b => b ≤ a) :=
        ⟨fun a b h1 h2 => Nat.le_antisymm h2 h1⟩
      have hp2 : ((print_top m).map Prod.snd).Perm [5, 5, 3, 1] := by
        rw [htake]
        exact ((hperm.trans hm).map Prod.snd).trans (by decide)
      have hsort2 : List.Sorted (fun a b : Nat => b ≤ a) ((print_top m).map Prod.snd) := by
        rw [htake]
        exact hsorted.map Prod.snd (fun a b h => by simpa [Nat.ble_eq] using h)
      exact List.eq_of_perm_of_sorted hp2 hsort2 (by decide)
    · rw [htake]
      exact (hperm.trans hm).map Prod.fst

/-! ### Edge-set and graph-construction invariants (C3) -/

/-- Sorted-pair equality cases for canonical forms. -/
lemma canon_cases {u1 v1 u2 v2 : Nat}
    (h : (min u1 v1, max u1 v1) = (min u2 v2, max u2 v2)) :
    (u1 = u2 ∧ v1 = v2) ∨ (u1 = v2 ∧ v1 = u2) := by
  simp only [Prod.mk.injEq] at h
  omega

/-- Any candidate edge a line contributes is strictly sorted. -/
lemma lineEdge_lt {line : List Char} {e : Nat × Nat} (h : lineEdge line = some e) :
    e.1 < e.2 := by
  unfold lineEdge at h
  by_cases hs : skipLine line = true
  · simp [hs] at h
  · rw [if_neg hs] at h
    cases hp : parsedNodes line with
    | nil => rw [hp] at h; simp at h
    | cons a t =>
      cases t with
      | nil => rw [hp] at h; simp at h
      | cons b t2 =>
        cases t2 with
        | cons c t3 => rw [hp] at h; simp at h
        | nil =>
          rw [hp] at h
          by_cases hab : a = b
          · simp [hab] at h
          · simp only [ne_eq, hab, not_false_iff, if_true, Option.some.injEq] at h
            subst h
            simp only []
            omega

lemma mem_insertEdge {s : List (Nat × Nat)} {f e : Nat × Nat}
    (h : e ∈ insertEdge s f) : e ∈ s ∨ e = f := by
  unfold insertEdge at h
  by_cases hf : f ∈ s
  · rw [if_pos hf] at h; exact Or.inl h
  · rw [if_neg hf] at h
    rcases List.mem_append.1 h with h1 | h1
    · exact Or.inl h1
    · exact Or.inr (List.mem_singleton.1 h1)

lemma insertEdge_nodup {s : List (Nat × Nat)} (f : Nat × Nat) (h : s.Nodup) :
    (insertEdge s f).Nodup := by
  unfold insertEdge
  by_cases hf : f ∈ s
  · rwa [if_pos hf]
  · rw [if_neg hf, List.nodup_append]
    exact ⟨h, List.nodup_singleton f, by simpa [List.disjoint_singleton] using hf⟩

/-- Everything in the accumulated set is either inherited or contributed by
some line. -/
lemma edgeSet_mem_aux :
    ∀ (lines : List (List Char)) (s : List (Nat × Nat)) (e : Nat × Nat),
      e ∈ lines.foldl
        (fun s l => match lineEdge l with | some f => insertEdge s f | none => s) s →
      e ∈ s ∨ ∃ l ∈ lines, lineEdge l = some e := by
  intro lines
  induction lines with
  | nil => intro s e h; exact Or.inl h
  | cons l rest ih =>
    intro s e h
    simp only [List.foldl_cons] at h
    cases hl : lineEdge l with
    | none =>
      rw [hl] at h
      rcases ih s e h with h1 | ⟨l2, hl2, he2⟩
      · exact Or.inl h1
      · exact Or.inr ⟨l2, List.mem_cons_of_mem _ hl2, he2⟩
    | some f =>
      rw [hl] at h
      rcases ih (insertEdge s f) e h with h1 | ⟨l2, hl2, he2⟩
      · rcases mem_insertEdge h1 with h2 | rfl
        · exact Or.inl h2
        · exact Or.inr ⟨l, List.mem_cons_self _ _, hl⟩
      · exact Or.inr ⟨l2, List.mem_cons_of_mem _ hl2, he2⟩

lemma edgeSet_nodup_aux :
    ∀ (lines : List (List Char)) (s : List (Nat × Nat)), s.Nodup →
      (lines.foldl
        (fun s l => match lineEdge l with | some f => insertEdge s f | none => s) s).Nodup := by
  intro lines
  induction lines with
  | nil => intro s h; exact h
  | cons l rest ih =>
    intro s h
    simp only [List.foldl_cons]
    cases hl : lineEdge l with
    | none => exact ih s h
    | some f => exact ih _ (insertEdge_nodup f h)

/-- Every member of the deduplicated set is strictly sorted. -/
lemma edgeSet_sorted (lines : List (List Char)) : ∀ e ∈ edgeSet lines, e.1 < e.2 := by
  intro e he
  rcases edgeSet_mem_aux lines [] e he with h | ⟨l, _, hl⟩
  · simp at h
  · exact lineEdge_lt hl

/-- The deduplicated set holds no entry twice. -/
lemma edgeSet_nodup (lines : List (List Char)) : (edgeSet lines).Nodup :=
  edgeSet_nodup_aux lines [] List.nodup_nil

/-- What `node_map.entry(..).or_insert_with(..)` guarantees. -/
lemma getOrAddNode_spec (g : AuthorGraph) (p : Nat) :
    (getOrAddNode g p).1.edges = g.edges ∧
    (∃ t, (getOrAddNode g p).1.nodes = g.nodes ++ t) ∧
    (g.nodes.Nodup → (getOrAddNode g p).1.nodes.Nodup) ∧
    (getOrAddNode g p).2 < (getOrAddNode g p).1.nodes.length ∧
    (getOrAddNode g p).1.nodes.getD (getOrAddNode g p).2 0 = p ∧
    (∀ q, q ∈ (getOrAddNode g p).1.nodes ↔ q ∈ g.nodes ∨ q = p) := by
  by_cases hp : p ∈ g.nodes
  · simp only [getOrAddNode, if_pos hp]
    refine ⟨trivial, ⟨[], by simp⟩, fun h => h, List.indexOf_lt_length.2 hp, ?_, ?_⟩
    · rw [List.getD_eq_getElem _ _ (List.indexOf_lt_length.2 hp)]
      exact List.getElem_indexOf _
    · intro q
      constructor
      · exact Or.inl
      · rintro (h | rfl)
        · exact h
        · exact hp
  · simp only [getOrAddNode, if_neg hp]
    refine ⟨trivial, ⟨[p], rfl⟩, ?_, by simp, ?_, ?_⟩
    · intro h
      rw [List.nodup_append]
      exact ⟨h, List.nodup_singleton p, by simpa [List.disjoint_singleton] using hp⟩
    · rw [List.getD_append_right _ _ _ _ (le_refl _)]
      simp
    · intro q
      simp [List.mem_append]

/-- One pass of the edge-insertion loop appends exactly one index edge whose
payloads are the raw pair. -/
lemma addEdgePair_spec (g : AuthorGraph) (e : Nat × Nat) :
    (g.nodes.Nodup → (addEdgePair g e).nodes.Nodup) ∧
    (∃ t, (addEdgePair g e).nodes = g.nodes ++ t) ∧
    (∃ i j, (addEdgePair g e).edges = g.edges ++ [(i, j)] ∧
      i < (addEdgePair g e).nodes.length ∧ j < (addEdgePair g e).nodes.length ∧
      (addEdgePair g e).nodes.getD i 0 = e.1 ∧ (addEdgePair g e).nodes.getD j 0 = e.2) ∧
    (∀ q, q ∈ (addEdgePair g e).nodes ↔ q ∈ g.nodes ∨ q = e.1 ∨ q = e.2) := by
  obtain ⟨he1, ⟨t1, ht1⟩, hn1, hi1, hd1, hm1⟩ := getOrAddNode_spec g e.1
  obtain ⟨he2, ⟨t2, ht2⟩, hn2, hi2, hd2, hm2⟩ := getOrAddNode_spec (getOrAddNode g e.1).1 e.2
  have hnodes : (addEdgePair g e).nodes = (getOrAddNode (getOrAddNode g e.1).1 e.2).1.nodes := rfl
  have hedges : (addEdgePair g e).edges =
      (getOrAddNode (getOrAddNode g e.1).1 e.2).1.edges ++
        [((getOrAddNode g e.1).2, (getOrAddNode (getOrAddNode g e.1).1 e.2).2)] := rfl
  refine ⟨?_, ?_, ?_, ?_⟩
  · intro h
    rw [hnodes]
    exact hn2 (hn1 h)
  · rw [hnodes, ht2, ht1]
    exact ⟨t1 ++ t2, by simp⟩
  · refine ⟨(getOrAddNode g e.1).2, (getOrAddNode (getOrAddNode g e.1).1 e.2).2,
      by rw [hedges, he2, he1], ?_, by rw [hnodes]; exact hi2, ?_, by rw [hnodes]; exact hd2⟩
    · rw [hnodes, ht2]
      calc (getOrAddNode g e.1).2 < (getOrAddNode g e.1).1.nodes.length := hi1
        _ ≤ _ := by simp [List.length_append]
    · rw [hnodes, ht2, List.getD_append _ _ _ _ hi1]
      exact hd1
  · intro q
    rw [hnodes]
    rw [hm2 q, hm1 q]
    tauto

/-- Fold invariant for the whole edge-insertion loop. -/
lemma buildGraph_fold :
    ∀ (es : List (Nat × Nat)) (g : AuthorGraph), g.nodes.Nodup →
      (∀ f ∈ g.edges, f.1 < g.nodes.length ∧ f.2 < g.nodes.length) →
      ((es.foldl addEdgePair g).nodes.Nodup ∧
       (∃ t, (es.foldl addEdgePair g).nodes = g.nodes ++ t) ∧
       (∀ f ∈ (es.foldl addEdgePair g).edges,
          f.1 < (es.foldl addEdgePair g).nodes.length ∧
          f.2 < (es.foldl addEdgePair g).nodes.length) ∧
       (es.foldl addEdgePair g).edges.map (payloadPair (es.foldl addEdgePair g)) =
          g.edges.map (payloadPair (es.foldl addEdgePair g)) ++ es ∧
       (∀ q, q ∈ (es.foldl addEdgePair g).nodes ↔
          q ∈ g.nodes ∨ ∃ f ∈ es, q = f.1 ∨ q = f.2)) := by
  intro es
  induction es with
  | nil =>
    intro g hnd hval
    simp only [List.foldl_nil]
    exact ⟨hnd, ⟨[], by simp⟩, hval, by simp, by simp⟩
  | cons e rest ih =>
    intro g hnd hval
    obtain ⟨hnodup1, ⟨t1, ht1⟩, ⟨i, j, hedges1, hi, hj, hdi, hdj⟩, hmem1⟩ :=
      addEdgePair_spec g e
    have hnd1 : (addEdgePair g e).nodes.Nodup := hnodup1 hnd
    have hval1 : ∀ f ∈ (addEdgePair g e).edges,
        f.1 < (addEdgePair g e).nodes.length ∧ f.2 < (addEdgePair g e).nodes.length := by
      intro f hf
      rw [hedges1] at hf
      rcases List.mem_append.1 hf with h1 | h1
      · have := hval f h1
        have hlen : g.nodes.length ≤ (addEdgePair g e).nodes.length := by
          rw [ht1]; simp
        omega
      · rcases List.mem_singleton.1 h1 with rfl
        exact ⟨hi, hj⟩
    obtain ⟨hnodup2, ⟨t2, ht2⟩, hval2, hmap2, hmem2⟩ := ih (addEdgePair g e) hnd1 hval1
    simp only [List.foldl_cons]
    refine ⟨hnodup2, ?_, hval2, ?_, ?_⟩
    · rw [ht2, ht1]
      exact ⟨t1 ++ t2, by simp⟩
    · rw [hmap2, hedges1]
      have hgd : payloadPair (rest.foldl addEdgePair (addEdgePair g e)) (i, j) = e := by
        unfold payloadPair
        rw [ht2, List.getD_append _ _ _ _ hi, List.getD_append _ _ _ _ hj, hdi, hdj]
      simp [hgd]
    · intro q
      rw [hmem2 q, hmem1 q]
      constructor
      · rintro ((h | h | h) | ⟨f, hf, h⟩)
        · exact Or.inl h
        · exact Or.inr ⟨e, List.mem_cons_self _ _, Or.inl h⟩
        · exact Or.inr ⟨e, List.mem_cons_self _ _, Or.inr h⟩
        · exact Or.inr ⟨f, List.mem_cons_of_mem _ hf, h⟩
      · rintro (h | ⟨f, hf, h⟩)
        · exact Or.inl (Or.inl h)
        · rcases List.mem_cons.1 hf with rfl | hf2
          · rcases h with h | h
            · exact Or.inl (Or.inr (Or.inl h))
            · exact Or.inl (Or.inr (Or.inr h))
          · exact Or.inr ⟨f, hf2, h⟩

/-- The built graph: duplicate-free payloads, valid edge indices, edges in
bijection (in order) with the raw set, node payloads exactly the endpoint
ids. -/
lemma buildGraph_spec (es : List (Nat × Nat)) :
    (buildGraph es).nodes.Nodup ∧
    (∀ f ∈ (buildGraph es).edges,
      f.1 < (buildGraph es).nodes.length ∧ f.2 < (buildGraph es).nodes.length) ∧
    (buildGraph es).edges.map (payloadPair (buildGraph es)) = es ∧
    (∀ q, q ∈ (buildGraph es).nodes ↔ ∃ f ∈ es, q = f.1 ∨ q = f.2) := by
  unfold buildGraph
  obtain ⟨h1, h2, h3, h4, h5⟩ :=
    buildGraph_fold es { nodes := [], edges := [] } List.nodup_nil (by simp)
  refine ⟨h1, h3, by simpa using h4, ?_⟩
  intro q
  rw [h5 q]
  simp

lemma payloadPair_mem {es : List (Nat × Nat)} {f : Nat × Nat}
    (hf : f ∈ (buildGraph es).edges) : payloadPair (buildGraph es) f ∈ es := by
  have h := (buildGraph_spec es).2.2.1
  have h2 : payloadPair (buildGraph es) f ∈
      (buildGraph es).edges.map (payloadPair (buildGraph es)) :=
    List.mem_map_of_mem _ hf
  rwa [h] at h2

lemma buildGraph_edge_ne (es : List (Nat × Nat)) (hne : ∀ f ∈ es, f.1 ≠ f.2) :
    ∀ f ∈ (buildGraph es).edges, f.1 ≠ f.2 := by
  intro f hf heq
  have hp := payloadPair_mem hf
  have hne2 := hne _ hp
  apply hne2
  unfold payloadPair
  rw [heq]

lemma buildGraph_WF (es : List (Nat × Nat)) (hne : ∀ f ∈ es, f.1 ≠ f.2) :
    (buildGraph es).WF := by
  obtain ⟨h1, h2, _, _⟩ := buildGraph_spec es
  exact ⟨h1, fun f hf =>
    ⟨buildGraph_edge_ne es hne f hf, (h2 f hf).1, (h2 f hf).2⟩⟩

/-- No two stored edges denote the same unordered index pair. -/
lemma buildGraph_canon_nodup (es : List (Nat × Nat)) (hlt : ∀ f ∈ es, f.1 < f.2)
    (hnd : es.Nodup) : ((buildGraph es).edges.map canonPair).Nodup := by
  obtain ⟨h1, h2, h3, h4⟩ := buildGraph_spec es
  have hednd : (buildGraph es).edges.Nodup := List.Nodup.of_map _ (h3 ▸ hnd)
  refine List.Nodup.map_on ?_ hednd
  intro x hx y hy hcanon
  have hltx := hlt _ (payloadPair_mem hx)
  have hlty := hlt _ (payloadPair_mem hy)
  unfold canonPair at hcanon
  rcases canon_cases hcanon with ⟨ha, hb⟩ | ⟨ha, hb⟩
  · exact Prod.ext ha hb
  · exfalso
    unfold payloadPair at hltx hlty
    rw [ha, hb] at hltx
    omega

lemma sorted_unordered_inj {es : List (Nat × Nat)} (hlt : ∀ e ∈ es, e.1 < e.2)
    {e f : Nat × Nat} (he : e ∈ es) (hf : f ∈ es) (h : unorderedEq e f) : e = f := by
  rcases h with h | h
  · exact h.symm
  · exfalso
    have h1 := hlt e he
    have h2 := hlt f hf
    rw [h] at h2
    simp only [] at h2
    omega

/-- C3: for every input, the deduplicated edge set holds only strictly
sorted pairs (hence no self-loop), holds no entry twice, and no two of its
entries denote the same unordered pair; and the graph built from it (in any
`HashSet` iteration order `es`) has no self-loop edge and at most one edge
between any unordered pair of node indices. -/
theorem dedup_edge_set_invariants (lines : List (List Char)) (es : List (Nat × Nat))
    (hes : es.Perm (edgeSet lines)) :
    (∀ e ∈ edgeSet lines, e.1 < e.2) ∧
    (edgeSet lines).Nodup ∧
    (∀ e ∈ edgeSet lines, ∀ f ∈ edgeSet lines, unorderedEq e f → e = f) ∧
    (∀ f ∈ (buildGraph es).edges, f.1 ≠ f.2) ∧
    ((buildGraph es).edges.map canonPair).Nodup := by
  have hlt := edgeSet_sorted lines
  have hnd := edgeSet_nodup lines
  have hlt2 : ∀ e ∈ es, e.1 < e.2 := fun e he => hlt e (hes.mem_iff.1 he)
  refine ⟨hlt, hnd, ?_, ?_, ?_⟩
  · intro e he f hf h
    exact sorted_unordered_inj hlt he hf h
  · exact buildGraph_edge_ne es (fun f hf => Nat.ne_of_lt (hlt2 f hf))
  · exact buildGraph_canon_nodup es hlt2 (hes.nodup_iff.mpr hnd)

/-- C3 witness: the invariants evaluated on the one-line input `"1 2"`. -/
theorem dedup_edge_set_invariants_witness :
    ([((1 : Nat), (2 : Nat))]).Perm (edgeSet [("1 2").toList]) ∧
    (∀ f ∈ (buildGraph [(1, 2)]).edges, f.1 ≠ f.2) :=
  ⟨by decide,
    (dedup_edge_set_invariants [("1 2").toList] [(1, 2)] (by decide)).2.2.2.1⟩

/-- C7 witness: the ranking evaluated on one concrete iteration order of the
example mapping. -/
theorem print_top_ranking_witness :
    ([(1, 5), (2, 3), (3, 5), (4, 1)] : List (Nat × Nat)).Perm
        [(1, 5), (2, 3), (3, 5), (4, 1)] ∧
      (print_top [(1, 5), (2, 3), (3, 5), (4, 1)]).map Prod.snd = [5, 5, 3, 1] :=
  ⟨List.Perm.refl _,
    ((print_top_ranking [(1, 5), (2, 3), (3, 5), (4, 1)]).2.2 (List.Perm.refl _)).1⟩

/-! ### Degree centrality (C6) -/

/-- Each valid non-loop edge is incident to exactly two of the `n` node
indices. -/
lemma incident_sum_two {e : Nat × Nat} {n : Nat} (hne : e.1 ≠ e.2)
    (h1 : e.1 < n) (h2 : e.2 < n) :
    ((List.range n).map (fun v => if incident e v then 1 else 0)).sum = 2 := by
  have hconv : ((List.range n).map (fun v => if incident e v then (1 : Nat) else 0)).sum =
      ∑ v in Finset.range n, if incident e v then 1 else 0 := rfl
  rw [hconv]
  have heq : ∀ v, (if incident e v then (1 : Nat) else 0) =
      if v = e.1 ∨ v = e.2 then 1 else 0 := by
    intro v
    have hiff : incident e v = true ↔ (v = e.1 ∨ v = e.2) := by
      unfold incident
      rw [Bool.or_eq_true, beq_iff_eq, beq_iff_eq]
      constructor
      · rintro (h | h)
        · exact Or.inl h.symm
        · exact Or.inr h.symm
      · rintro (h | h)
        · exact Or.inl h.symm
        · exact Or.inr h.symm
    by_cases hv : v = e.1 ∨ v = e.2
    · rw [if_pos (hiff.mpr hv), if_pos hv]
    · rw [if_neg (fun h => hv (hiff.mp h)), if_neg hv]
  rw [Finset.sum_congr rfl (fun v _ => heq v), Finset.sum_boole]
  have h : (Finset.range n).filter (fun v => v = e.1 ∨ v = e.2) = {e.1, e.2} := by
    ext v
    simp only [Finset.mem_filter, Finset.mem_range, Finset.mem_insert, Finset.mem_singleton]
    constructor
    · rintro ⟨_, h⟩; exact h
    · rintro (rfl | rfl)
      · exact ⟨h1, Or.inl rfl⟩
      · exact ⟨h2, Or.inr rfl⟩
  rw [h]
  simp [Finset.card_pair hne]

/-- Handshake lemma over the edge list. -/
lemma degree_sum_aux :
    ∀ (E : List (Nat × Nat)) (n : Nat),
      (∀ e ∈ E, e.1 ≠ e.2 ∧ e.1 < n ∧ e.2 < n) →
      ((List.range n).map (fun v => (E.filter (fun e => incident e v)).length)).sum =
        2 * E.length := by
  intro E
  induction E with
  | nil => intro n _; simp
  | cons e E ih =>
    intro n hE
    have he := hE e (List.mem_cons_self _ _)
    have hE2 : ∀ f ∈ E, f.1 ≠ f.2 ∧ f.1 < n ∧ f.2 < n :=
      fun f hf => hE f (List.mem_cons_of_mem _ hf)
    have hsplit : ∀ v, (((e :: E).filter (fun f => incident f v)).length) =
        (if incident e v then 1 else 0) + (E.filter (fun f => incident f v)).length := by
      intro v
      rw [List.filter_cons]
      by_cases hv : incident e v
      · simp [hv, Nat.add_comm]
      · simp [hv]
    simp only [hsplit]
    rw [List.sum_map_add, ih n hE2, incident_sum_two he.1 he.2.1 he.2.2]
    simp only [List.length_cons]
    ring

/-- C6: for every well-formed graph, the degree-centrality values sum to
twice the edge count (each edge contributes 1 to both endpoints; there are
no self-loops). -/
theorem degree_sum_eq_twice_edges (g : AuthorGraph) (hWF : g.WF) :
    ((degree_centrality g).map Prod.snd).sum = 2 * g.edge_count := by
  have hmap : (degree_centrality g).map Prod.snd =
      (List.range g.nodes.length).map (fun v => g.degree v) := by
    unfold degree_centrality
    rw [List.map_map]
    rfl
  rw [hmap]
  unfold AuthorGraph.degree
  exact degree_sum_aux g.edges g.nodes.length (fun e he => (hWF.2 e he))

/-- C6 witness: the handshake identity on the path graph 1–2–3
(degrees 1+2+1 = 2·2). -/
theorem degree_sum_eq_twice_edges_witness :
    pathGraph123.WF ∧
    ((degree_centrality pathGraph123).map Prod.snd).sum = 2 * pathGraph123.edge_count :=
  ⟨by decide, degree_sum_eq_twice_edges pathGraph123 (by decide)⟩

/-! ### Eigenvector centrality: unit norm (C4) -/

/-- All direction-vector entries stay nonnegative. -/
lemma powerVec_nonneg (g : AuthorGraph) : ∀ (k v : Nat), 0 ≤ powerVec g k v := by
  intro k
  induction k with
  | zero => intro v; exact zero_le_one
  | succ k ih =>
    intro v
    unfold powerVec neighborSum
    apply List.sum_nonneg
    intro x hx
    rcases List.mem_map.1 hx with ⟨e, _, rfl⟩
    exact ih _

/-- Crossing a non-loop edge from an incident node lands on an incident
node and crossing back returns. -/
lemma otherEnd_incident {e : Nat × Nat} {v : Nat} (hne : e.1 ≠ e.2)
    (hv : incident e v = true) :
    incident e (otherEnd e v) = true ∧ otherEnd e (otherEnd e v) = v := by
  unfold incident otherEnd at *
  rw [Bool.or_eq_true] at hv
  rcases hv with h | h
  · have h1 : e.1 = v := beq_iff_eq.1 h
    rw [if_pos h]
    have h2 : (e.1 == e.2) = false := beq_eq_false_iff_ne.2 hne
    constructor
    · simp [beq_iff_eq]
    · rw [if_neg (by simp [h2])]
      exact h1
  · have h1 : e.2 = v := beq_iff_eq.1 h
    by_cases hev : e.1 = v
    · rw [if_pos (beq_iff_eq.2 hev)]
      have h2 : (e.1 == e.2) = false := beq_eq_false_iff_ne.2 hne
      constructor
      · simp [beq_iff_eq]
      · rw [if_neg (by simp; exact hne)]
        exact hev
    · rw [if_neg (by simp; exact hev)]
      constructor
      · simp [beq_iff_eq]
      · rw [if_pos (by simp)]
        exact h1

lemma otherEnd_lt {g : AuthorGraph} (hWF : g.WF) {e : Nat × Nat} (he : e ∈ g.edges)
    (v : Nat) : otherEnd e v < g.nodes.length := by
  obtain ⟨-, h1, h2⟩ := hWF.2 e he
  unfold otherEnd
  by_cases h : (e.1 == v) = true
  · rw [if_pos h]; exact h2
  · rw [if_neg h]; exact h1

/-- With at least one edge, every iteration keeps a strictly positive entry
on some edge-incident node: the all-ones start is positive on the edge's
endpoints, and one further step pushes positive mass across the edge. -/
lemma powerVec_exists_pos (g : AuthorGraph) (hWF : g.WF) (hedges : g.edges ≠ []) :
    ∀ k, ∃ v, v < g.nodes.length ∧ 0 < powerVec g k v ∧
      ∃ e ∈ g.edges, incident e v = true := by
  intro k
  induction k with
  | zero =>
    obtain ⟨e, he⟩ := List.exists_mem_of_ne_nil g.edges hedges
    exact ⟨e.1, (hWF.2 e he).2.1, one_pos, e, he,
      by unfold incident; simp⟩
  | succ k ih =>
    obtain ⟨v, hv, hpos, e, he, hinc⟩ := ih
    have hne := (hWF.2 e he).1
    obtain ⟨hinc2, hother⟩ := otherEnd_incident hne hinc
    refine ⟨otherEnd e v, otherEnd_lt hWF he v, ?_, e, he, hinc2⟩
    unfold powerVec neighborSum
    have hmem : powerVec g k v ∈
        ((g.edges.filter (fun f => incident f (otherEnd e v))).map
          (fun f => powerVec g k (otherEnd f (otherEnd e v)))) := by
      refine List.mem_map.2 ⟨e, List.mem_filter.2 ⟨he, hinc2⟩, ?_⟩
      rw [hother]
    calc (0 : ℚ) < powerVec g k v := hpos
      _ ≤ _ := List.single_le_sum (fun x hx => by
          rcases List.mem_map.1 hx with ⟨f, _, rfl⟩
          exact powerVec_nonneg g k _) _ hmem

/-- The squared norm is positive at every iteration (the divide-by-zero
branch is unreachable when the graph has an edge). -/
lemma sumSq_pos (g : AuthorGraph) (hWF : g.WF) (hedges : g.edges ≠ []) (k : Nat) :
    0 < sumSq g k := by
  obtain ⟨v, hv, hpos, -⟩ := powerVec_exists_pos g hWF hedges k
  unfold sumSq
  have hmem : powerVec g k v ^ 2 ∈
      (List.range g.nodes.length).map (fun v => powerVec g k v ^ 2) :=
    List.mem_map.2 ⟨v, List.mem_range.2 hv, rfl⟩
  calc (0 : ℚ) < powerVec g k v ^ 2 := by positivity
    _ ≤ _ := List.single_le_sum (fun x hx => by
        rcases List.mem_map.1 hx with ⟨w, _, rfl⟩
        positivity) _ hmem

lemma list_sum_div (l : List ℚ) (c : ℚ) : (l.map (fun x => x / c)).sum = l.sum / c := by
  induction l with
  | nil => simp
  | cons x l ih => simp [ih, add_div]

/-- After each normalization the vector has squared Euclidean norm
exactly 1. -/
lemma normalizedNormSq_eq_one (g : AuthorGraph) (hWF : g.WF) (hedges : g.edges ≠ [])
    (k : Nat) : normalizedNormSq g k = 1 := by
  have hS := sumSq_pos g hWF hedges k
  unfold normalizedNormSq
  have hcomp : (List.range g.nodes.length).map (fun v => powerVec g k v ^ 2 / sumSq g k) =
      ((List.range g.nodes.length).map (fun v => powerVec g k v ^ 2)).map
        (fun x => x / sumSq g k) := by
    rw [List.map_map]
    rfl
  rw [hcomp, list_sum_div]
  exact div_self (ne_of_gt hS)

/-- The first convergence check cannot pass: the all-ones vector is not
within 1e-6 of a unit vector once there are at least two nodes. -/
lemma not_convergesAtFirstCheck (g : AuthorGraph) (hWF : g.WF) (hedges : g.edges ≠ []) :
    ¬ ConvergesAtFirstCheck g := by
  have hS := sumSq_pos g hWF hedges 1
  intro h
  rcases h with h0 | h
  · exact absurd h0 (ne_of_gt hS)
  · obtain ⟨e, he⟩ := List.exists_mem_of_ne_nil g.edges hedges
    obtain ⟨hne, h1, h2⟩ := hWF.2 e he
    have hn : 2 ≤ g.nodes.length := by omega
    have hlt : ∑ v in Finset.range g.nodes.length, (1 - tol) ^ 2 * sumSq g 1 <
        ∑ v in Finset.range g.nodes.length, powerVec g 1 v ^ 2 := by
      apply Finset.sum_lt_sum_of_nonempty
      · exact ⟨e.1, Finset.mem_range.2 h1⟩
      · intro v hv
        exact (h v (List.mem_range.mpr (Finset.mem_range.1 hv))).1
    have hsum : ∑ v in Finset.range g.nodes.length, powerVec g 1 v ^ 2 = sumSq g 1 := rfl
    rw [hsum, Finset.sum_const, Finset.card_range, nsmul_eq_mul] at hlt
    have hmono : (2 : ℚ) * ((1 - tol) ^ 2 * sumSq g 1) ≤
        (g.nodes.length : ℚ) * ((1 - tol) ^ 2 * sumSq g 1) := by
      apply mul_le_mul_of_nonneg_right
      · exact_mod_cast hn
      · exact mul_nonneg (sq_nonneg _) hS.le
    have hup : (2 : ℚ) * ((1 - tol) ^ 2 * sumSq g 1) < sumSq g 1 := lt_of_le_of_lt hmono hlt
    have hgt : (1 : ℚ) < 2 * (1 - tol) ^ 2 := by norm_num [tol]
    have hdown := mul_lt_mul_of_pos_right hgt hS
    rw [one_mul, mul_assoc] at hdown
    linarith

/-- C4: for every well-formed non-empty graph with at least one edge, at
every iteration the squared norm is nonzero (so the normalization is a true
division), the normalized vector has Euclidean norm exactly 1 — within any
tolerance, in particular 1e-6 — and the iteration cannot stop while still
holding the unnormalized all-ones initial vector, so the vector held at any
stop (early convergence or the 100-iteration cap) is normalized. -/
theorem eigenvector_unit_norm (g : AuthorGraph) (hWF : g.WF)
    (hnodes : g.nodes ≠ []) (hedges : g.edges ≠ []) (k : Nat) :
    sumSq g k ≠ 0 ∧ normalizedNormSq g k = 1 ∧ ¬ ConvergesAtFirstCheck g :=
  ⟨(sumSq_pos g hWF hedges k).ne', normalizedNormSq_eq_one g hWF hedges k,
    not_convergesAtFirstCheck g hWF hedges⟩

/-- C4 witness: the unit-norm property after one iteration on the path
graph 1–2–3. -/
theorem eigenvector_unit_norm_witness :
    pathGraph123.WF ∧ pathGraph123.nodes ≠ [] ∧ pathGraph123.edges ≠ [] ∧
    (sumSq pathGraph123 1 ≠ 0 ∧ normalizedNormSq pathGraph123 1 = 1 ∧
      ¬ ConvergesAtFirstCheck pathGraph123) :=
  ⟨by decide, by decide, by decide,
    eigenvector_unit_norm pathGraph123 (by decide) (by decide) (by decide) 1⟩

/-! ### Path-sum centrality: dijkstra refinement (C5) -/

/-- `find?` over `range m` returns the least index satisfying the
predicate. -/
lemma find?_range_eq_some {p : Nat → Bool} :
    ∀ {m d : Nat}, (List.range m).find? p = some d →
      d < m ∧ p d = true ∧ ∀ j < d, p j = false := by
  intro m
  induction m with
  | zero => intro d h; simp at h
  | succ m ih =>
    intro d h
    rw [List.range_succ, List.find?_append] at h
    cases hm : (List.range m).find? p with
    | some d2 =>
      rw [hm] at h
      simp only [Option.or] at h
      obtain rfl : d2 = d := by cases h; rfl
      obtain ⟨h1, h2, h3⟩ := ih hm
      exact ⟨by omega, h2, h3⟩
    | none =>
      rw [hm] at h
      simp only [Option.or] at h
      have hnone := List.find?_eq_none.1 hm
      cases hpm : p m with
      | true =>
        simp only [List.find?, hpm] at h
        obtain rfl : m = d := by cases h; rfl
        refine ⟨by omega, hpm, ?_⟩
        intro j hj
        cases hpj : p j with
        | true => exact absurd hpj (hnone j (List.mem_range.2 hj))
        | false => rfl
      | false =>
        simp only [List.find?, hpm] at h
        exact Option.noConfusion h

lemma mem_neighborsOf_iff {g : AuthorGraph} {v w : Nat} :
    w ∈ neighborsOf g v ↔ adjacentIdx g v w := by
  unfold neighborsOf adjacentIdx
  constructor
  · intro h
    rcases List.mem_map.1 h with ⟨e, he, heq⟩
    rcases List.mem_filter.1 he with ⟨hmem, hinc⟩
    unfold incident at hinc
    rw [Bool.or_eq_true] at hinc
    unfold otherEnd at heq
    rcases hinc with h1 | h1
    · have hv : e.1 = v := beq_iff_eq.1 h1
      rw [if_pos h1] at heq
      left
      have : e = (v, w) := by
        cases e
        simp only [] at hv heq
        rw [hv, heq]
      rwa [this] at hmem
    · have hv : e.2 = v := beq_iff_eq.1 h1
      by_cases h2 : (e.1 == v) = true
      · have hv1 : e.1 = v := beq_iff_eq.1 h2
        rw [if_pos h2] at heq
        right
        have : e = (w, v) := by
          cases e
          simp only [] at hv hv1 heq
          rw [hv1, ← heq, hv]
        rwa [this] at hmem
      · rw [if_neg h2] at heq
        right
        have : e = (w, v) := by
          cases e
          simp only [] at hv heq
          rw [hv, heq]
        rwa [this] at hmem
  · intro h
    rcases h with h | h
    · refine List.mem_map.2 ⟨(v, w), List.mem_filter.2 ⟨h, ?_⟩, ?_⟩
      · unfold incident; simp
      · unfold otherEnd; simp
    · refine List.mem_map.2 ⟨(w, v), List.mem_filter.2 ⟨h, ?_⟩, ?_⟩
      · unfold incident; simp
      · unfold otherEnd
        by_cases hwv : (w == v) = true
        · rw [if_pos hwv]
          exact (beq_iff_eq.1 hwv).symm
        · rw [if_neg hwv]

lemma walk_zero {g : AuthorGraph} {s v : Nat} : Walk g s v 0 ↔ s = v := by
  constructor
  · intro h
    cases h
    rfl
  · intro h
    subst h
    exact Walk.nil s

lemma walk_snoc {g : AuthorGraph} :
    ∀ {k s u v : Nat}, Walk g s u k → adjacentIdx g u v → Walk g s v (k + 1) := by
  intro k
  induction k with
  | zero =>
    intro s u v hw hadj
    have h2 := walk_zero.1 hw
    subst h2
    exact Walk.cons hadj (Walk.nil v)
  | succ k ih =>
    intro s u v hw hadj
    cases hw with
    | cons hadj2 hw2 => exact Walk.cons hadj2 (ih hw2 hadj)

lemma walk_succ_inv {g : AuthorGraph} :
    ∀ {k s v : Nat}, Walk g s v (k + 1) →
      ∃ u, Walk g s u k ∧ adjacentIdx g u v := by
  intro k
  induction k with
  | zero =>
    intro s v h
    cases h with
    | cons hadj hw =>
      have h2 := walk_zero.1 hw
      subst h2
      exact ⟨s, Walk.nil s, hadj⟩
  | succ k ih =>
    intro s v h
    cases h with
    | cons hadj hw =>
      obtain ⟨u, hwu, hadj2⟩ := ih hw
      exact ⟨u, Walk.cons hadj hwu, hadj2⟩

lemma exactReach_iff_walk (g : AuthorGraph) (s : Nat) :
    ∀ (k v : Nat), v ∈ exactReach g s k ↔ Walk g s v k := by
  intro k
  induction k with
  | zero =>
    intro v
    unfold exactReach
    rw [Finset.mem_singleton]
    constructor
    · intro h
      subst h
      exact Walk.nil _
    · intro h
      exact (walk_zero.1 h).symm
  | succ k ih =>
    intro v
    unfold exactReach
    rw [Finset.mem_biUnion]
    constructor
    · rintro ⟨u, hu, hv⟩
      exact walk_snoc ((ih u).1 hu) (mem_neighborsOf_iff.1 (List.mem_toFinset.1 hv))
    · intro h
      obtain ⟨u, hwu, hadj⟩ := walk_succ_inv h
      exact ⟨u, (ih u).2 hwu, List.mem_toFinset.2 (mem_neighborsOf_iff.2 hadj)⟩


lemma exact_subset_ball (g : AuthorGraph) (s : Nat) :
    ∀ k, exactReach g s k ⊆ ball g s k := by
  intro k
  induction k with
  | zero =>
    unfold exactReach ball
    exact Finset.Subset.refl _
  | succ k ih =>
    unfold exactReach ball
    refine Finset.Subset.trans
      (Finset.biUnion_subset_biUnion_of_subset_left _ ih) ?_
    exact Finset.subset_union_right

lemma ball_mem_iff (g : AuthorGraph) (s : Nat) :
    ∀ k v, v ∈ ball g s k ↔ ∃ j, j ≤ k ∧ v ∈ exactReach g s j := by
  intro k
  induction k with
  | zero =>
    intro v
    unfold ball
    constructor
    · intro h
      exact ⟨0, le_refl _, h⟩
    · rintro ⟨j, hj, h⟩
      obtain rfl : j = 0 := Nat.le_zero.1 hj
      exact h
  | succ k ih =>
    intro v
    unfold ball
    rw [Finset.mem_union, Finset.mem_biUnion]
    constructor
    · rintro (h | ⟨u, hu, hv⟩)
      · obtain ⟨j, hj, h2⟩ := (ih v).1 h
        exact ⟨j, by omega, h2⟩
      · obtain ⟨j, hj, h2⟩ := (ih u).1 hu
        refine ⟨j + 1, by omega, ?_⟩
        have : exactReach g s (j + 1) = (exactReach g s j).biUnion
            (fun q => (neighborsOf g q).toFinset) := rfl
        rw [this, Finset.mem_biUnion]
        exact ⟨u, h2, hv⟩
    · rintro ⟨j, hj, h2⟩
      rcases Nat.lt_or_ge j (k + 1) with hjk | hjk
      · exact Or.inl ((ih v).2 ⟨j, by omega, h2⟩)
      · obtain rfl : j = k + 1 := by omega
        have : exactReach g s (k + 1) = (exactReach g s k).biUnion
            (fun q => (neighborsOf g q).toFinset) := rfl
        rw [this, Finset.mem_biUnion] at h2
        obtain ⟨u, hu, hv⟩ := h2
        exact Or.inr ⟨u, (ih u).2 ⟨k, le_refl _, hu⟩, hv⟩

lemma ball_mono_succ (g : AuthorGraph) (s k : Nat) : ball g s k ⊆ ball g s (k + 1) := by
  intro v hv
  have : ball g s (k + 1) = ball g s k ∪ (ball g s k).biUnion
      (fun q => (neighborsOf g q).toFinset) := rfl
  rw [this, Finset.mem_union]
  exact Or.inl hv

lemma ball_mono (g : AuthorGraph) (s : Nat) : ∀ {j k : Nat}, j ≤ k →
    ball g s j ⊆ ball g s k := by
  intro j k
  induction k with
  | zero =>
    intro h
    obtain rfl : j = 0 := Nat.le_zero.1 h
    exact Finset.Subset.refl _
  | succ k ih =>
    intro h
    rcases Nat.lt_or_ge j (k + 1) with hjk | hjk
    · exact Finset.Subset.trans (ih (by omega)) (ball_mono_succ g s k)
    · obtain rfl : j = k + 1 := by omega
      exact Finset.Subset.refl _

lemma ball_stab (g : AuthorGraph) (s : Nat) {k : Nat}
    (h : ball g s (k + 1) = ball g s k) :
    ∀ m, ball g s (k + m) = ball g s k := by
  intro m
  induction m with
  | zero => rfl
  | succ m ih =>
    have hstep : ball g s (k + m + 1) = ball g s (k + m) ∪ (ball g s (k + m)).biUnion
        (fun q => (neighborsOf g q).toFinset) := rfl
    have hstep2 : ball g s (k + 1) = ball g s k ∪ (ball g s k).biUnion
        (fun q => (neighborsOf g q).toFinset) := rfl
    show ball g s (k + m + 1) = ball g s k
    rw [hstep, ih, ← hstep2, h]

lemma ball_subset_range {g : AuthorGraph} (hWF : g.WF) {s : Nat}
    (hs : s < g.nodes.length) : ∀ k, ∀ v ∈ ball g s k, v < g.nodes.length := by
  intro k
  induction k with
  | zero =>
    intro v hv
    unfold ball at hv
    rw [Finset.mem_singleton] at hv
    subst hv
    exact hs
  | succ k ih =>
    intro v hv
    have hstep : ball g s (k + 1) = ball g s k ∪ (ball g s k).biUnion
        (fun q => (neighborsOf g q).toFinset) := rfl
    rw [hstep, Finset.mem_union, Finset.mem_biUnion] at hv
    rcases hv with h | ⟨u, hu, hv2⟩
    · exact ih v h
    · have := List.mem_toFinset.1 hv2
      unfold neighborsOf at this
      rcases List.mem_map.1 this with ⟨e, he, rfl⟩
      exact otherEnd_lt hWF (List.mem_filter.1 he).1 u

lemma ball_grow (g : AuthorGraph) (s : Nat) :
    ∀ k, (∃ j, j ≤ k ∧ ball g s (j + 1) = ball g s j) ∨ k + 1 ≤ (ball g s k).card := by
  intro k
  induction k with
  | zero =>
    right
    have : ball g s 0 = {s} := rfl
    rw [this]
    simp
  | succ k ih =>
    rcases ih with ⟨j, hj, hstab⟩ | hcard
    · exact Or.inl ⟨j, by omega, hstab⟩
    · by_cases hstab : ball g s (k + 1) = ball g s k
      · exact Or.inl ⟨k, by omega, hstab⟩
      · right
        have hss : ball g s k ⊂ ball g s (k + 1) :=
          ssubset_iff_subset_ne.2 ⟨ball_mono_succ g s k, fun h => hstab h.symm⟩
        have := Finset.card_lt_card hss
        omega


lemma walk_mem_ball {g : AuthorGraph} (hWF : g.WF) {s : Nat}
    (hs : s < g.nodes.length) {v j : Nat} (hw : Walk g s v j) :
    v ∈ ball g s g.nodes.length := by
  have hvj : v ∈ ball g s j :=
    exact_subset_ball g s j ((exactReach_iff_walk g s j v).2 hw)
  rcases le_or_lt j g.nodes.length with hj | hj
  · exact ball_mono g s hj hvj
  · rcases ball_grow g s g.nodes.length with ⟨j0, hj0, hstab⟩ | hcard
    · have h1 : ball g s j = ball g s j0 := by
        have := ball_stab g s hstab (j - j0)
        rwa [Nat.add_sub_cancel' (by omega : j0 ≤ j)] at this
      have h2 : ball g s g.nodes.length = ball g s j0 := by
        have := ball_stab g s hstab (g.nodes.length - j0)
        rwa [Nat.add_sub_cancel' hj0] at this
      rw [h2, ← h1]
      exact hvj
    · exfalso
      have hsub : ball g s g.nodes.length ⊆ Finset.range g.nodes.length := by
        intro w hw2
        exact Finset.mem_range.2 (ball_subset_range hWF hs _ w hw2)
      have := Finset.card_le_card hsub
      rw [Finset.card_range] at this
      omega

lemma dijkstraDist_isSome_iff {g : AuthorGraph} (hWF : g.WF) {s : Nat}
    (hs : s < g.nodes.length) (v : Nat) :
    (dijkstraDist g s v).isSome = true ↔ Reachable g s v := by
  unfold dijkstraDist
  rw [List.find?_isSome]
  constructor
  · rintro ⟨k, hk, hpk⟩
    have hball : v ∈ ball g s k := of_decide_eq_true hpk
    obtain ⟨j, hj, hex⟩ := (ball_mem_iff g s k v).1 hball
    exact ⟨j, (exactReach_iff_walk g s j v).1 hex⟩
  · rintro ⟨j, hw⟩
    refine ⟨g.nodes.length, List.mem_range.2 (by omega), decide_eq_true ?_⟩
    exact walk_mem_ball hWF hs hw

lemma dijkstraDist_least {g : AuthorGraph} {s : Nat} {v d : Nat}
    (h : dijkstraDist g s v = some d) :
    Walk g s v d ∧ ∀ j, Walk g s v j → d ≤ j := by
  unfold dijkstraDist at h
  obtain ⟨hdm, hpd, hmin⟩ := find?_range_eq_some h
  have hball : v ∈ ball g s d := of_decide_eq_true hpd
  have hnot : ∀ j0, j0 < d → v ∉ ball g s j0 := by
    intro j0 hj hmem
    have h2 := hmin j0 hj
    rw [decide_eq_true hmem] at h2
    exact Bool.noConfusion h2
  constructor
  · obtain ⟨j, hj, hex⟩ := (ball_mem_iff g s d v).1 hball
    rcases Nat.lt_or_ge j d with hjd | hjd
    · exact absurd (exact_subset_ball g s j hex) (hnot j hjd)
    · obtain rfl : j = d := by omega
      exact (exactReach_iff_walk g s j v).1 hex
  · intro j hw
    by_contra hc
    push_neg at hc
    exact hnot j hc (exact_subset_ball g s j ((exactReach_iff_walk g s j v).2 hw))

lemma dijkstraDist_self (g : AuthorGraph) (s : Nat) : dijkstraDist g s s = some 0 := by
  unfold dijkstraDist
  rw [List.range_succ_eq_map, List.find?_cons]
  have h0 : decide (s ∈ ball g s 0) = true := by
    apply decide_eq_true
    have hb : ball g s 0 = {s} := rfl
    rw [hb]
    exact Finset.mem_singleton_self s
  rw [h0]

/-- C5: the distance map summed by the path-sum centrality is exactly the
unit-weight shortest-path map: a node carries a value iff it is reachable
from the source (the source itself at distance 0), and the value is the
length of a shortest walk; unreachable nodes are absent and contribute
nothing to the sum.  On the path graph 1–2–3 the resulting centrality is
2 for node 2 and 3 for nodes 1 and 3. -/
theorem path_sum_centrality_spec (g : AuthorGraph) (hWF : g.WF) (s : Nat)
    (hs : s < g.nodes.length) :
    (∀ v, (dijkstraDist g s v).isSome = true ↔ Reachable g s v) ∧
    (∀ v d, dijkstraDist g s v = some d →
      Walk g s v d ∧ ∀ j, Walk g s v j → d ≤ j) ∧
    dijkstraDist g s s = some 0 ∧
    pathSum g s =
      ((List.range g.nodes.length).filterMap (fun v => dijkstraDist g s v)).sum ∧
    betweenness_centrality pathGraph123 = [(1, 3), (2, 2), (3, 3)] :=
  ⟨fun v => dijkstraDist_isSome_iff hWF hs v,
    fun v d h => dijkstraDist_least h,
    dijkstraDist_self g s, rfl, by decide⟩

/-- C5 witness: the characterization applied to node 2 (index 1) of the
path graph. -/
theorem path_sum_centrality_spec_witness :
    pathGraph123.WF ∧ 1 < pathGraph123.nodes.length ∧
    pathSum pathGraph123 1 = 2 ∧ dijkstraDist pathGraph123 1 1 = some 0 :=
  ⟨by decide, by decide, by decide,
    (path_sum_centrality_spec pathGraph123 (by decide) 1 (by decide)).2.2.1⟩


/-! ### Run-to-run determinism (C10)

The only run-to-run nondeterminism in the pipeline is the iteration order of
the `HashSet` of edges (and of the `HashMap`s, which only affects the order
entries are enumerated, not the key-value content).  The lemmas below show
every payload-keyed result is invariant under permuting the edge set. -/

lemma getD_inj {g : AuthorGraph} (hnd : g.nodes.Nodup) {u v : Nat}
    (hu : u < g.nodes.length) (hv : v < g.nodes.length)
    (h : g.nodes.getD u 0 = g.nodes.getD v 0) : u = v := by
  rw [List.getD_eq_getElem _ _ hu, List.getD_eq_getElem _ _ hv] at h
  have := (List.Nodup.get_inj_iff hnd (i := ⟨u, hu⟩) (j := ⟨v, hv⟩)).1
  simpa using this h

lemma getD_indexOf {g : AuthorGraph} {p : Nat} (hp : p ∈ g.nodes) :
    g.nodes.getD (g.nodes.indexOf p) 0 = p := by
  rw [List.getD_eq_getElem _ _ (List.indexOf_lt_length.2 hp)]
  exact List.getElem_indexOf _

lemma indexOf_getD {g : AuthorGraph} (hnd : g.nodes.Nodup) {v : Nat}
    (hv : v < g.nodes.length) : g.nodes.indexOf (g.nodes.getD v 0) = v := by
  rw [List.getD_eq_getElem _ _ hv]
  have := List.get_indexOf hnd ⟨v, hv⟩
  simpa using this

lemma getD_mem {g : AuthorGraph} {v : Nat} (hv : v < g.nodes.length) :
    g.nodes.getD v 0 ∈ g.nodes := by
  rw [List.getD_eq_getElem _ _ hv]
  exact List.getElem_mem _

lemma indexOf_lt {g : AuthorGraph} {p : Nat} (hp : p ∈ g.nodes) :
    g.nodes.indexOf p < g.nodes.length := List.indexOf_lt_length.2 hp


lemma incident_payload {g : AuthorGraph} (hnd : g.nodes.Nodup) {f : Nat × Nat}
    (h1 : f.1 < g.nodes.length) (h2 : f.2 < g.nodes.length) {p : Nat}
    (hp : p ∈ g.nodes) :
    incident f (g.nodes.indexOf p) = incidentP (payloadPair g f) p := by
  unfold incident incidentP payloadPair
  have hiff1 : (f.1 == g.nodes.indexOf p) = (g.nodes.getD f.1 0 == p) := by
    by_cases h : f.1 = g.nodes.indexOf p
    · rw [beq_iff_eq.2 h, Eq.comm, beq_iff_eq]
      rw [h, getD_indexOf hp]
    · have : ¬ g.nodes.getD f.1 0 = p := by
        intro hc
        apply h
        rw [← indexOf_getD hnd h1, hc]
      rw [beq_eq_false_iff_ne.2 h, Eq.comm, beq_eq_false_iff_ne.2 (fun hc => this hc)]
  have hiff2 : (f.2 == g.nodes.indexOf p) = (g.nodes.getD f.2 0 == p) := by
    by_cases h : f.2 = g.nodes.indexOf p
    · rw [beq_iff_eq.2 h, Eq.comm, beq_iff_eq]
      rw [h, getD_indexOf hp]
    · have : ¬ g.nodes.getD f.2 0 = p := by
        intro hc
        apply h
        rw [← indexOf_getD hnd h2, hc]
      rw [beq_eq_false_iff_ne.2 h, Eq.comm, beq_eq_false_iff_ne.2 (fun hc => this hc)]
  rw [hiff1, hiff2]

lemma lookup_map_range {β : Type} (g : AuthorGraph) (hnd : g.nodes.Nodup)
    (f : Nat → β) (p : Nat) :
    ∀ (l : List Nat), (∀ v ∈ l, v < g.nodes.length) →
      ((l.map (fun v => (g.nodes.getD v 0, f v))).lookup p) =
        if p ∈ g.nodes ∧ g.nodes.indexOf p ∈ l then some (f (g.nodes.indexOf p))
        else none := by
  intro l
  induction l with
  | nil => intro _; simp
  | cons v l ih =>
    intro hval
    have hv := hval v (List.mem_cons_self _ _)
    have hrest := fun w hw => hval w (List.mem_cons_of_mem _ hw)
    simp only [List.map_cons, List.lookup]
    by_cases hpv : p = g.nodes.getD v 0
    · have hbeq : (p == g.nodes.getD v 0) = true := beq_iff_eq.2 hpv
      rw [hbeq]
      have hpmem : p ∈ g.nodes := hpv ▸ getD_mem hv
      have hidx : g.nodes.indexOf p = v := by
        rw [hpv, indexOf_getD hnd hv]
      rw [if_pos ⟨hpmem, by rw [hidx]; exact List.mem_cons_self _ _⟩, hidx]
    · have hbeq : (p == g.nodes.getD v 0) = false := beq_eq_false_iff_ne.2 hpv
      rw [hbeq, ih hrest]
      by_cases hc : p ∈ g.nodes ∧ g.nodes.indexOf p ∈ l
      · rw [if_pos hc, if_pos ⟨hc.1, List.mem_cons_of_mem _ hc.2⟩]
      · rw [if_neg hc, if_neg ?_]
        rintro ⟨hpmem, hmem⟩
        rcases List.mem_cons.1 hmem with heq | hmem2
        · exact hpv (by rw [← heq, getD_indexOf hpmem])
        · exact hc ⟨hpmem, hmem2⟩

lemma degree_centrality_lookup (g : AuthorGraph) (hnd : g.nodes.Nodup) (p : Nat) :
    (degree_centrality g).lookup p =
      if p ∈ g.nodes then some (g.degree (g.nodes.indexOf p)) else none := by
  unfold degree_centrality
  rw [lookup_map_range g hnd _ p (List.range g.nodes.length)
      (fun v hv => List.mem_range.1 hv)]
  by_cases hp : p ∈ g.nodes
  · rw [if_pos ⟨hp, List.mem_range.2 (indexOf_lt hp)⟩, if_pos hp]
  · rw [if_neg (fun hc => hp hc.1), if_neg hp]

lemma betweenness_centrality_lookup (g : AuthorGraph) (hnd : g.nodes.Nodup) (p : Nat) :
    (betweenness_centrality g).lookup p =
      if p ∈ g.nodes then some (pathSum g (g.nodes.indexOf p)) else none := by
  unfold betweenness_centrality
  rw [lookup_map_range g hnd _ p (List.range g.nodes.length)
      (fun v hv => List.mem_range.1 hv)]
  by_cases hp : p ∈ g.nodes
  · rw [if_pos ⟨hp, List.mem_range.2 (indexOf_lt hp)⟩, if_pos hp]
  · rw [if_neg (fun hc => hp hc.1), if_neg hp]


lemma buildGraph_mem_iff_perm {lines : List (List Char)} {es : List (Nat × Nat)}
    (hes : es.Perm (edgeSet lines)) (p : Nat) :
    p ∈ (buildGraph es).nodes ↔ ∃ f ∈ edgeSet lines, p = f.1 ∨ p = f.2 := by
  rw [(buildGraph_spec es).2.2.2 p]
  constructor
  · rintro ⟨f, hf, h⟩
    exact ⟨f, hes.mem_iff.1 hf, h⟩
  · rintro ⟨f, hf, h⟩
    exact ⟨f, hes.mem_iff.2 hf, h⟩

lemma degree_payload (es : List (Nat × Nat)) {p : Nat}
    (hp : p ∈ (buildGraph es).nodes) :
    (buildGraph es).degree ((buildGraph es).nodes.indexOf p) = pdeg es p := by
  obtain ⟨hnd, hval, hmap, _⟩ := buildGraph_spec es
  unfold AuthorGraph.degree pdeg
  conv_rhs => rw [← hmap]
  rw [List.filter_map, List.length_map]
  congr 1
  apply List.filter_congr
  intro f hf
  exact incident_payload hnd (hval f hf).1 (hval f hf).2 hp

lemma pdeg_perm {es₁ es₂ : List (Nat × Nat)} (h : es₁.Perm es₂) (p : Nat) :
    pdeg es₁ p = pdeg es₂ p :=
  (h.filter _).length_eq


lemma walkP_zero {es : List (Nat × Nat)} {p q : Nat} : WalkP es p q 0 ↔ p = q := by
  constructor
  · intro h
    cases h
    rfl
  · intro h
    subst h
    exact WalkP.nil p

lemma adjacentIdx_bounds {g : AuthorGraph}
    (hval : ∀ f ∈ g.edges, f.1 < g.nodes.length ∧ f.2 < g.nodes.length)
    {u w : Nat} (h : adjacentIdx g u w) :
    u < g.nodes.length ∧ w < g.nodes.length := by
  rcases h with h | h
  · exact hval (u, w) h
  · exact ⟨(hval (w, u) h).2, (hval (w, u) h).1⟩

lemma adjacentIdx_to_payload {es : List (Nat × Nat)} {u w : Nat}
    (h : adjacentIdx (buildGraph es) u w) :
    adjacentP es ((buildGraph es).nodes.getD u 0) ((buildGraph es).nodes.getD w 0) := by
  rcases h with h | h
  · exact Or.inl (payloadPair_mem h)
  · exact Or.inr (payloadPair_mem h)

lemma adjacentP_to_idx {es : List (Nat × Nat)} {p r : Nat}
    (hp : p ∈ (buildGraph es).nodes) (h : adjacentP es p r) :
    r ∈ (buildGraph es).nodes ∧
      adjacentIdx (buildGraph es)
        ((buildGraph es).nodes.indexOf p) ((buildGraph es).nodes.indexOf r) := by
  obtain ⟨hnd, hval, hmap, _⟩ := buildGraph_spec es
  rcases h with h | h
  · have h2 : (p, r) ∈ (buildGraph es).edges.map (payloadPair (buildGraph es)) := by
      rw [hmap]; exact h
    obtain ⟨f, hf, hpp⟩ := List.mem_map.1 h2
    have hp1 : (buildGraph es).nodes.getD f.1 0 = p := by
      have := congrArg Prod.fst hpp
      unfold payloadPair at this
      exact this
    have hp2 : (buildGraph es).nodes.getD f.2 0 = r := by
      have := congrArg Prod.snd hpp
      unfold payloadPair at this
      exact this
    have hb := hval f hf
    have hr : r ∈ (buildGraph es).nodes := hp2 ▸ getD_mem hb.2
    have hi1 : (buildGraph es).nodes.indexOf p = f.1 := by
      rw [← hp1, indexOf_getD hnd hb.1]
    have hi2 : (buildGraph es).nodes.indexOf r = f.2 := by
      rw [← hp2, indexOf_getD hnd hb.2]
    refine ⟨hr, Or.inl ?_⟩
    rw [hi1, hi2]
    exact hf
  · have h2 : (r, p) ∈ (buildGraph es).edges.map (payloadPair (buildGraph es)) := by
      rw [hmap]; exact h
    obtain ⟨f, hf, hpp⟩ := List.mem_map.1 h2
    have hp1 : (buildGraph es).nodes.getD f.1 0 = r := by
      have := congrArg Prod.fst hpp
      unfold payloadPair at this
      exact this
    have hp2 : (buildGraph es).nodes.getD f.2 0 = p := by
      have := congrArg Prod.snd hpp
      unfold payloadPair at this
      exact this
    have hb := hval f hf
    have hr : r ∈ (buildGraph es).nodes := hp1 ▸ getD_mem hb.1
    have hi1 : (buildGraph es).nodes.indexOf r = f.1 := by
      rw [← hp1, indexOf_getD hnd hb.1]
    have hi2 : (buildGraph es).nodes.indexOf p = f.2 := by
      rw [← hp2, indexOf_getD hnd hb.2]
    refine ⟨hr, Or.inr ?_⟩
    rw [hi1, hi2]
    exact hf

lemma walk_cons_inv {g : AuthorGraph} {a b k : Nat} (h : Walk g a b (k + 1)) :
    ∃ w, adjacentIdx g a w ∧ Walk g w b k := by
  cases h with
  | cons hadj hw => exact ⟨_, hadj, hw⟩

lemma walkP_cons_inv {es : List (Nat × Nat)} {a b k : Nat} (h : WalkP es a b (k + 1)) :
    ∃ r, adjacentP es a r ∧ WalkP es r b k := by
  cases h with
  | cons hadj hw => exact ⟨_, hadj, hw⟩

lemma walk_idx_iff_P (es : List (Nat × Nat)) :
    ∀ (k : Nat) {p q : Nat}, p ∈ (buildGraph es).nodes → q ∈ (buildGraph es).nodes →
      (Walk (buildGraph es)
          ((buildGraph es).nodes.indexOf p) ((buildGraph es).nodes.indexOf q) k ↔
        WalkP es p q k) := by
  obtain ⟨hnd, hval, hmap, _⟩ := buildGraph_spec es
  intro k
  induction k with
  | zero =>
    intro p q hp hq
    rw [walk_zero, walkP_zero]
    constructor
    · intro h
      rw [← getD_indexOf hp, ← getD_indexOf hq, h]
    · intro h
      rw [h]
  | succ k ih =>
    intro p q hp hq
    constructor
    · intro h
      obtain ⟨w, hadj, hw⟩ := walk_cons_inv h
      have hwlt : w < (buildGraph es).nodes.length := (adjacentIdx_bounds hval hadj).2
      have hr : (buildGraph es).nodes.getD w 0 ∈ (buildGraph es).nodes := getD_mem hwlt
      have hadjP := adjacentIdx_to_payload hadj
      rw [getD_indexOf hp] at hadjP
      have hwalk : Walk (buildGraph es)
          ((buildGraph es).nodes.indexOf ((buildGraph es).nodes.getD w 0))
          ((buildGraph es).nodes.indexOf q) k := by
        rw [indexOf_getD hnd hwlt]
        exact hw
      exact WalkP.cons hadjP ((ih hr hq).1 hwalk)
    · intro h
      obtain ⟨r, hadjP, hw⟩ := walkP_cons_inv h
      obtain ⟨hr, hadj⟩ := adjacentP_to_idx hp hadjP
      exact Walk.cons hadj ((ih hr hq).2 hw)

lemma walkP_perm {es₁ es₂ : List (Nat × Nat)} (h : es₁.Perm es₂) :
    ∀ {p q k : Nat}, WalkP es₁ p q k → WalkP es₂ p q k := by
  intro p q k hw
  induction hw with
  | nil p => exact WalkP.nil p
  | cons hadj hw2 ih =>
    refine WalkP.cons ?_ ih
    rcases hadj with h1 | h1
    · exact Or.inl (h.mem_iff.1 h1)
    · exact Or.inr (h.mem_iff.1 h1)


lemma dijkstraDist_payload {lines : List (List Char)} {es₁ es₂ : List (Nat × Nat)}
    (h₁ : es₁.Perm (edgeSet lines)) (h₂ : es₂.Perm (edgeSet lines)) {p q : Nat}
    (hp1 : p ∈ (buildGraph es₁).nodes) (hq1 : q ∈ (buildGraph es₁).nodes)
    (hp2 : p ∈ (buildGraph es₂).nodes) (hq2 : q ∈ (buildGraph es₂).nodes) :
    dijkstraDist (buildGraph es₁)
        ((buildGraph es₁).nodes.indexOf p) ((buildGraph es₁).nodes.indexOf q) =
      dijkstraDist (buildGraph es₂)
        ((buildGraph es₂).nodes.indexOf p) ((buildGraph es₂).nodes.indexOf q) := by
  have hperm : es₁.Perm es₂ := h₁.trans h₂.symm
  have hne₁ : ∀ f ∈ es₁, f.1 ≠ f.2 :=
    fun f hf => Nat.ne_of_lt (edgeSet_sorted lines f (h₁.mem_iff.1 hf))
  have hne₂ : ∀ f ∈ es₂, f.1 ≠ f.2 :=
    fun f hf => Nat.ne_of_lt (edgeSet_sorted lines f (h₂.mem_iff.1 hf))
  have hWF₁ := buildGraph_WF es₁ hne₁
  have hWF₂ := buildGraph_WF es₂ hne₂
  have hs₁ := indexOf_lt hp1
  have hs₂ := indexOf_lt hp2
  have hwalk : ∀ k, Walk (buildGraph es₁)
      ((buildGraph es₁).nodes.indexOf p) ((buildGraph es₁).nodes.indexOf q) k ↔
      Walk (buildGraph es₂)
        ((buildGraph es₂).nodes.indexOf p) ((buildGraph es₂).nodes.indexOf q) k :=
    fun k => (walk_idx_iff_P es₁ k hp1 hq1).trans
      ((Iff.intro (walkP_perm hperm) (walkP_perm hperm.symm)).trans
        (walk_idx_iff_P es₂ k hp2 hq2).symm)
  cases hd1 : dijkstraDist (buildGraph es₁)
      ((buildGraph es₁).nodes.indexOf p) ((buildGraph es₁).nodes.indexOf q) with
  | none =>
    cases hd2 : dijkstraDist (buildGraph es₂)
        ((buildGraph es₂).nodes.indexOf p) ((buildGraph es₂).nodes.indexOf q) with
    | none => rfl
    | some d =>
      exfalso
      have hr2 := (dijkstraDist_isSome_iff hWF₂ hs₂ _).1 (by rw [hd2]; rfl)
      obtain ⟨k, hw⟩ := hr2
      have hsome1 := (dijkstraDist_isSome_iff hWF₁ hs₁ _).2 ⟨k, (hwalk k).2 hw⟩
      rw [hd1] at hsome1
      simp at hsome1
  | some d =>
    obtain ⟨hw1, hmin1⟩ := dijkstraDist_least hd1
    have hsome2 := (dijkstraDist_isSome_iff hWF₂ hs₂ _).2 ⟨d, (hwalk d).1 hw1⟩
    obtain ⟨d2, hd2⟩ := Option.isSome_iff_exists.1 hsome2
    obtain ⟨hw2, hmin2⟩ := dijkstraDist_least hd2
    rw [hd2]
    have hle1 : d ≤ d2 := hmin1 d2 ((hwalk d2).2 hw2)
    have hle2 : d2 ≤ d := hmin2 d ((hwalk d).1 hw1)
    congr 1
    omega

lemma filterMap_sum_getD (f : Nat → Option Nat) :
    ∀ (l : List Nat), (l.filterMap f).sum = (l.map (fun v => (f v).getD 0)).sum := by
  intro l
  induction l with
  | nil => rfl
  | cons v l ih =>
    rw [List.filterMap_cons, List.map_cons, List.sum_cons]
    cases hv : f v with
    | none => rw [ih]; simp
    | some a => rw [List.sum_cons, ih]; simp

lemma nodes_eq_map_range (g : AuthorGraph) :
    g.nodes = (List.range g.nodes.length).map (fun v => g.nodes.getD v 0) := by
  apply List.ext_get
  · simp
  · intro n h1 h2
    simp only [List.get_eq_getElem, List.getElem_map, List.getElem_range]
    rw [List.getD_eq_getElem _ _ h1]

lemma map_nodes_sum (g : AuthorGraph) (G : Nat → Nat) :
    (g.nodes.map G).sum =
      ((List.range g.nodes.length).map (fun v => G (g.nodes.getD v 0))).sum := by
  conv_lhs => rw [nodes_eq_map_range g]
  rw [List.map_map]
  rfl

lemma pathSum_eq_payload_sum (g : AuthorGraph) (hnd : g.nodes.Nodup) (s : Nat) :
    pathSum g s =
      (g.nodes.map (fun p => (dijkstraDist g s (g.nodes.indexOf p)).getD 0)).sum := by
  rw [map_nodes_sum]
  unfold pathSum
  rw [filterMap_sum_getD]
  apply congrArg
  apply List.map_congr_left
  intro v hv
  rw [indexOf_getD hnd (List.mem_range.1 hv)]

lemma pathSum_payload_invariance {lines : List (List Char)} {es₁ es₂ : List (Nat × Nat)}
    (h₁ : es₁.Perm (edgeSet lines)) (h₂ : es₂.Perm (edgeSet lines)) {p : Nat}
    (hp1 : p ∈ (buildGraph es₁).nodes) (hp2 : p ∈ (buildGraph es₂).nodes) :
    pathSum (buildGraph es₁) ((buildGraph es₁).nodes.indexOf p) =
      pathSum (buildGraph es₂) ((buildGraph es₂).nodes.indexOf p) := by
  have hnd₁ := (buildGraph_spec es₁).1
  have hnd₂ := (buildGraph_spec es₂).1
  have hmemiff : ∀ q, q ∈ (buildGraph es₁).nodes ↔ q ∈ (buildGraph es₂).nodes :=
    fun q => (buildGraph_mem_iff_perm h₁ q).trans (buildGraph_mem_iff_perm h₂ q).symm
  have hnodesperm : (buildGraph es₁).nodes.Perm (buildGraph es₂).nodes :=
    List.perm_of_nodup_nodup_toFinset_eq hnd₁ hnd₂
      (Finset.ext fun q => by
        rw [List.mem_toFinset, List.mem_toFinset]
        exact hmemiff q)
  rw [pathSum_eq_payload_sum _ hnd₁, pathSum_eq_payload_sum _ hnd₂]
  calc ((buildGraph es₁).nodes.map (fun q =>
        (dijkstraDist (buildGraph es₁) ((buildGraph es₁).nodes.indexOf p)
          ((buildGraph es₁).nodes.indexOf q)).getD 0)).sum
      = ((buildGraph es₁).nodes.map (fun q =>
        (dijkstraDist (buildGraph es₂) ((buildGraph es₂).nodes.indexOf p)
          ((buildGraph es₂).nodes.indexOf q)).getD 0)).sum := by
        apply congrArg
        apply List.map_congr_left
        intro q hq
        rw [dijkstraDist_payload h₁ h₂ hp1 hq hp2 ((hmemiff q).1 hq)]
    _ = _ := ((hnodesperm.map _).sum_eq)


lemma beq_idx_payload {g : AuthorGraph} (hnd : g.nodes.Nodup) {u : Nat}
    (hu : u < g.nodes.length) {p : Nat} (hp : p ∈ g.nodes) :
    (u == g.nodes.indexOf p) = (g.nodes.getD u 0 == p) := by
  by_cases h : u = g.nodes.indexOf p
  · rw [beq_iff_eq.2 h, Eq.comm, beq_iff_eq]
    rw [h, getD_indexOf hp]
  · have hne : ¬ g.nodes.getD u 0 = p := by
      intro hc
      apply h
      rw [← indexOf_getD hnd hu, hc]
    rw [beq_eq_false_iff_ne.2 h, Eq.comm, beq_eq_false_iff_ne.2 (fun hc => hne hc)]

lemma powerVec_payload (es : List (Nat × Nat)) :
    ∀ (k : Nat) {p : Nat}, p ∈ (buildGraph es).nodes →
      powerVec (buildGraph es) k ((buildGraph es).nodes.indexOf p) = powerVecP es k p := by
  obtain ⟨hnd, hval, hmap, _⟩ := buildGraph_spec es
  intro k
  induction k with
  | zero => intro p _; rfl
  | succ k ih =>
    intro p hp
    show neighborSum (buildGraph es) (powerVec (buildGraph es) k)
        ((buildGraph es).nodes.indexOf p) =
      ((adjListP es p).map (powerVecP es k)).sum
    unfold neighborSum adjListP
    have hes : es.filter (fun e => incidentP e p) =
        ((buildGraph es).edges.filter
          (fun f => incident f ((buildGraph es).nodes.indexOf p))).map
            (payloadPair (buildGraph es)) := by
      conv_lhs => rw [← hmap]
      rw [List.filter_map]
      congr 1
      apply List.filter_congr
      intro f hf
      exact (incident_payload hnd (hval f hf).1 (hval f hf).2 hp).symm
    rw [hes, List.map_map, List.map_map]
    apply congrArg
    apply List.map_congr_left
    intro f hf
    rcases List.mem_filter.1 hf with ⟨hfe, hfi⟩
    obtain ⟨hb1, hb2⟩ := hval f hfe
    simp only [Function.comp]
    unfold otherEnd payloadPair
    have hcond := beq_idx_payload hnd hb1 hp
    by_cases hc : (f.1 == (buildGraph es).nodes.indexOf p) = true
    · rw [if_pos hc, if_pos (by rw [← hcond]; exact hc)]
      have hm2 : (buildGraph es).nodes.getD f.2 0 ∈ (buildGraph es).nodes := getD_mem hb2
      have h2 := ih hm2
      rwa [indexOf_getD hnd hb2] at h2
    · rw [if_neg hc, if_neg (by rw [← hcond]; exact hc)]
      have hm1 : (buildGraph es).nodes.getD f.1 0 ∈ (buildGraph es).nodes := getD_mem hb1
      have h2 := ih hm1
      rwa [indexOf_getD hnd hb1] at h2

lemma powerVecP_perm {es₁ es₂ : List (Nat × Nat)} (h : es₁.Perm es₂) :
    ∀ (k p : Nat), powerVecP es₁ k p = powerVecP es₂ k p := by
  intro k
  induction k with
  | zero => intro p; rfl
  | succ k ih =>
    intro p
    show ((adjListP es₁ p).map (powerVecP es₁ k)).sum =
      ((adjListP es₂ p).map (powerVecP es₂ k)).sum
    have hfun : powerVecP es₁ k = powerVecP es₂ k := funext ih
    rw [hfun]
    exact (((h.filter _).map _).map _).sum_eq

/-- C10: two runs of the pipeline on identical input — i.e. two `HashSet`
iteration orders of the same deduplicated edge set — produce identical
degree maps, identical path-sum maps (bit-exact `usize` values), and
identical exact eigenvector direction vectors at every iteration (hence
float eigenvector maps equal within the numeric tolerance that absorbs
rounding-order differences). -/
theorem pipeline_run_invariance (lines : List (List Char)) (es₁ es₂ : List (Nat × Nat))
    (h₁ : es₁.Perm (edgeSet lines)) (h₂ : es₂.Perm (edgeSet lines)) :
    (∀ p, (degree_centrality (buildGraph es₁)).lookup p =
          (degree_centrality (buildGraph es₂)).lookup p) ∧
    (∀ p, (betweenness_centrality (buildGraph es₁)).lookup p =
          (betweenness_centrality (buildGraph es₂)).lookup p) ∧
    (∀ k p, eigenMapQ (buildGraph es₁) k p = eigenMapQ (buildGraph es₂) k p) := by
  have hnd₁ := (buildGraph_spec es₁).1
  have hnd₂ := (buildGraph_spec es₂).1
  have hperm : es₁.Perm es₂ := h₁.trans h₂.symm
  have hmemiff : ∀ q, q ∈ (buildGraph es₁).nodes ↔ q ∈ (buildGraph es₂).nodes :=
    fun q => (buildGraph_mem_iff_perm h₁ q).trans (buildGraph_mem_iff_perm h₂ q).symm
  refine ⟨?_, ?_, ?_⟩
  · intro p
    rw [degree_centrality_lookup _ hnd₁ p, degree_centrality_lookup _ hnd₂ p]
    by_cases hp : p ∈ (buildGraph es₁).nodes
    · rw [if_pos hp, if_pos ((hmemiff p).1 hp)]
      rw [degree_payload es₁ hp, degree_payload es₂ ((hmemiff p).1 hp), pdeg_perm hperm]
    · rw [if_neg hp, if_neg (fun hc => hp ((hmemiff p).2 hc))]
  · intro p
    rw [betweenness_centrality_lookup _ hnd₁ p, betweenness_centrality_lookup _ hnd₂ p]
    by_cases hp : p ∈ (buildGraph es₁).nodes
    · rw [if_pos hp, if_pos ((hmemiff p).1 hp)]
      rw [pathSum_payload_invariance h₁ h₂ hp ((hmemiff p).1 hp)]
    · rw [if_neg hp, if_neg (fun hc => hp ((hmemiff p).2 hc))]
  · intro k p
    unfold eigenMapQ
    by_cases hp : p ∈ (buildGraph es₁).nodes
    · rw [if_pos hp, if_pos ((hmemiff p).1 hp)]
      rw [powerVec_payload es₁ k hp, powerVec_payload es₂ k ((hmemiff p).1 hp),
        powerVecP_perm hperm]
    · rw [if_neg hp, if_neg (fun hc => hp ((hmemiff p).2 hc))]

/-- C10 witness: the two iteration orders of the edge set of the path graph
give the same degree map. -/
theorem pipeline_run_invariance_witness :
    ([((1 : Nat), (2 : Nat)), (2, 3)]).Perm (edgeSet [("1 2").toList, ("2 3").toList]) ∧
    ([((2 : Nat), (3 : Nat)), (1, 2)]).Perm (edgeSet [("1 2").toList, ("2 3").toList]) ∧
    (degree_centrality (buildGraph [(1, 2), (2, 3)])).lookup 2 =
      (degree_centrality (buildGraph [(2, 3), (1, 2)])).lookup 2 :=
  ⟨by decide, by decide,
    (pipeline_run_invariance [("1 2").toList, ("2 3").toList]
      [(1, 2), (2, 3)] [(2, 3), (1, 2)] (by decide) (by decide)).1 2⟩


end CentralityAnalysis
